import Mathlib

/-!
# Matrix-embedding LSB steganography (`Alexey/Indiva1/main.cpp`)

A shallow embedding of the Hamming-syndrome codec of `main.cpp` and theorems about it.

Conventions of the embedding:

* a `std::vector<int>` of bits is a `List Nat`; the code compares elements with `== 1`
  and combines them with `^`, `|`, `<<`, which are the `Nat` bitwise operations on the
  non-negative values the program handles; the XOR of positions up to `n_val` and the
  value of a chunk of at most 31 bits stay inside the range of `int`, so no wrap-around
  is modelled;
* an access outside a vector (undefined behaviour in C++) and a loop that never ends
  make the function return `none`;
* the module-level variable `n` (initialised to `7`), which `encode` reads in place of a
  parameter, is the explicit first argument `n` of `encode` and of the decoders.
-/

namespace Indiva1

/-! ## Syndrome and block codec -/

/-- The body of the loop of `syndrom`, for the 0-based index `j = i - 1`:
`if (x[i - 1] == 1) s ^= i;`. Reading past the end of `x` gives `none`. -/
def syndrom_step (x : List Nat) (s : Option Nat) (j : Nat) : Option Nat :=
  match s, x[j]? with
  | some s, some b => some (if b = 1 then s ^^^ (j + 1) else s)
  | _, _ => none

/-- Function `syndrom(x, n_val)`: XOR of the 1-based positions `i ≤ n_val` with `x[i - 1] == 1`. -/
def syndrom (x : List Nat) (n_val : Nat) : Option Nat :=
  (List.range n_val).foldl (syndrom_step x) (some 0)

/-- Function `binvect_to_num(v)`: `num = (num << 1) | b` over the elements of `v`. -/
def binvect_to_num (v : List Nat) : Nat :=
  v.foldl (fun num b => (num <<< 1) ||| b) 0

/-- The loop `for (i = r_val - 1; i >= 0; --i) { bits[i] = temp % 2; temp /= 2; }`;
the first argument is `i + 1`, the number of iterations still to run. -/
def fill_bits : Nat → Nat → List Nat → List Nat
  | 0, _, bits => bits
  | i + 1, temp, bits => fill_bits i (temp / 2) (bits.set i (temp % 2))

/-- The vector `bits(r_val, 0)` after the conversion loop started with `temp = value`. -/
def int_to_bits (value r_val : Nat) : List Nat :=
  fill_bits r_val value (List.replicate r_val 0)

/-- Function `encode(x_, r_val)`: the syndrome of `x_` over the module-level `n`, written into
`r_val` bits, most significant first. -/
def encode (n : Nat) (x_ : List Nat) (r_val : Nat) : Option (List Nat) :=
  (syndrom x_ n).map (fun s_ => int_to_bits s_ r_val)

/-- The tail shared by the two flipping branches of `task1`: `e(n_val, 0)`, `e[idx] = 1`,
`result[i] = x[i] ^ e[i]` for `i < n_val`. A write at `idx ≥ n_val` is outside `e`. -/
def apply_error (x : List Nat) (n_val idx : Nat) : Option (List Nat) :=
  if idx < n_val then
    some (List.zipWith (fun a b => a ^^^ b) (x.take n_val) ((List.replicate n_val 0).set idx 1))
  else none

/-- Function `task1(x, m, n_val)`: embed the chunk `m` into the block `x`. -/
def task1 (x m : List Nat) (n_val : Nat) : Option (List Nat) :=
  match syndrom x n_val with
  | none => none
  | some pos =>
    let mes_num := binvect_to_num m
    if pos = mes_num then some x
    else if pos ≠ 0 then apply_error x n_val ((mes_num ^^^ pos) - 1)
    else apply_error x n_val (mes_num - 1)

/-! ## Carrier pipeline -/

/-- Function `get_lsb_bits`: `data[i] & 1` for `i < total_pixels * channels`, in order. The buffer
`data` behind the pointer has to hold that many bytes. -/
def get_lsb_bits (data : List Nat) (width height channels : Nat) : Option (List Nat) :=
  let total_pixels := width * height
  if total_pixels * channels ≤ data.length then
    some ((data.take (total_pixels * channels)).map (fun d => d &&& 1))
  else none

/-- Function `set_lsb_bits`: a copy of the `total_bytes` bytes of `orig_data` in which
`new_data[i] = (new_data[i] & ~1) | bits[i]`, stored back into an `unsigned char`.
`~1` is the `int` with every bit but the lowest set. -/
def set_lsb_bits (orig_data bits : List Nat) (width height channels : Nat) :
    Option (List Nat) :=
  let total_bytes := width * height * channels
  if total_bytes ≤ orig_data.length ∧ total_bytes ≤ bits.length then
    some (List.zipWith (fun d b => ((d &&& 4294967294) ||| b) % 256)
      (orig_data.take total_bytes) (bits.take total_bytes))
  else none

/-- The call `block.resize(size, 0)` applied to a block that is at most `size` long. -/
def resize_block (block : List Nat) (size : Nat) : List Nat :=
  block ++ List.replicate (size - block.length) 0

/-- The segmentation loop `for (i = 0; i < bits.size(); i += size)`, on the part of
`bits` from `i` on; the first argument bounds the number of iterations. -/
def split_loop : Nat → List Nat → Nat → List (List Nat)
  | 0, _, _ => []
  | fuel + 1, bits, size =>
    if bits = [] then [] else
      resize_block (bits.take size) size :: split_loop fuel (bits.drop size) size

/-- The segmentation of a bit sequence into blocks of `size`, the last one zero-padded.
With `size = 0` and a non-empty sequence the loop never advances. -/
def split_blocks (bits : List Nat) (size : Nat) : Option (List (List Nat)) :=
  if size = 0 then (if bits = [] then some [] else none)
  else some (split_loop bits.length bits size)

/-- The call `v.resize(k)`: truncate, or extend with zeros. -/
def resize (v : List Nat) (k : Nat) : List Nat :=
  v.take k ++ List.replicate (k - v.length) 0

/-- The two loops that build `encoded_blocks`: `task1(blocks_x[i], blocks_m[i], n_val)`
for `i < blocks_m.size()`, then the remaining carrier blocks unchanged. -/
def embed_blocks : List (List Nat) → List (List Nat) → Nat → Option (List (List Nat))
  | blocks_x, [], _ => some blocks_x
  | [], _ :: _, _ => none
  | x :: blocks_x, m :: blocks_m, n_val =>
    match task1 x m n_val, embed_blocks blocks_x blocks_m n_val with
    | some encoded, some rest => some (encoded :: rest)
    | _, _ => none

/-- What a run of an encoder ends with. -/
inductive EncodeResult where
  /-- The image is written; its LSB plane holds these bits. -/
  | saved (new_bits : List Nat)
  /-- The branch `Message too long for this image`: nothing is written. -/
  | too_long
  /-- An access outside a vector, or a loop that does not end. -/
  | undefined
  /-- The branch `Unsupported channels` of `encode_image_lsb`: nothing is written. -/
  | unsupported
  deriving DecidableEq

/-- The part shared by both encoders from the header to the flattened `new_bits`:
header of `blocks_m.size()`, capacity check, embedding, flattening, `resize`. -/
def encode_blocks (blocks_x blocks_m : List (List Nat)) (n_val r_val total : Nat) :
    Option (Option (List Nat)) :=
  let num_blocks := blocks_m.length
  let header_bits := int_to_bits num_blocks r_val
  let blocks_m := header_bits :: blocks_m
  if blocks_m.length > blocks_x.length then some none
  else
    match embed_blocks blocks_x blocks_m n_val with
    | none => none
    | some encoded_blocks => some (some (resize encoded_blocks.flatten total))

/-- The bit-level core of `encode_image_lsb`, lines 113 to 171: from the `lsb_bits` of an
image that passed the channel check and `message_bits` to the `new_bits` handed to
`set_lsb_bits`. The channel check itself is in `encode_image_lsb_loaded`. -/
def encode_image_lsb (lsb_bits message_bits : List Nat) (n_val r_val : Nat) : EncodeResult :=
  match split_blocks lsb_bits n_val, split_blocks message_bits r_val with
  | some blocks_x, some blocks_m =>
    match encode_blocks blocks_x blocks_m n_val r_val lsb_bits.length with
    | some (some new_bits) => .saved new_bits
    | some none => .too_long
    | none => .undefined
  | _, _ => .undefined

/-- The extraction loop `for (i = 1; i <= num_blocks; ++i)` with its `break`; the first
argument is the number of iterations left, `num_blocks - i + 1`. -/
def extract_loop (n : Nat) (blocks_x : List (List Nat)) (r_val : Nat) :
    Nat → Nat → List Nat → Option (List Nat)
  | 0, _, message_bits => some message_bits
  | left + 1, i, message_bits =>
    match blocks_x[i]? with
    | none => some message_bits
    | some block =>
      match encode n block r_val with
      | none => none
      | some bits_block => extract_loop n blocks_x r_val left (i + 1) (message_bits ++ bits_block)

/-- The part shared by both decoders: read the header from `blocks_x[0]`, then extract. -/
def decode_blocks (n : Nat) (blocks_x : List (List Nat)) (n_val r_val : Nat) :
    Option (List Nat) :=
  match blocks_x[0]? with
  | none => none
  | some header =>
    match syndrom header n_val with
    | none => none
    | some num_blocks => extract_loop n blocks_x r_val num_blocks 1 []

/-- The bit-level core of `decode_image_lsb`, from `lsb_bits` on. -/
def decode_image_lsb (n : Nat) (lsb_bits : List Nat) (n_val r_val : Nat) : Option (List Nat) :=
  match split_blocks lsb_bits n_val with
  | none => none
  | some blocks_x => decode_blocks n blocks_x n_val r_val

/-! ## Permuted traversal -/

/-- Exchange of the elements at positions `i` and `j` (`std::iter_swap`). -/
def swap_at (v : List Nat) (i j : Nat) : List Nat :=
  match v[i]?, v[j]? with
  | some a, some b => (v.set i b).set j a
  | _, _ => v

/-- Modelled from the spec: `std::shuffle(indices.begin(), indices.end(), gen)` with
`std::mt19937 gen(seed)` is library code outside the repository; the spec has
"initialize the identity permutation of size `totalBits`; apply a uniform random shuffle
driven by a seeded generator". It is taken as the exchange pass
`for i in 1 .. size - 1: swap(v[i], v[d])` with `d` drawn from `[0, i]`. The generator is
the parameter `draw`: `draw seed i` is the raw number drawn at step `i`. -/
def shuffle (draw : Nat → Nat → Nat) (seed : Nat) (v : List Nat) : List Nat :=
  (List.range v.length).foldl (fun acc i => swap_at acc i (draw seed i % (i + 1))) v

/-- Function `generate_pixel_order(width, height, channels, seed)`: the indices
`0 .. total_bits - 1`, shuffled. -/
def generate_pixel_order (draw : Nat → Nat → Nat) (width height channels seed : Nat) :
    List Nat :=
  let total_bits := width * height * channels
  shuffle draw seed (List.range total_bits)

/-- The elements `v[p]` for the indices `p` of the list, in order; an index outside `v`
gives `none`. -/
def read_all (v : List Nat) : List Nat → Option (List Nat)
  | [] => some []
  | p :: ps =>
    match v[p]?, read_all v ps with
    | some b, some bs => some (b :: bs)
    | _, _ => none

/-- The loop `for (i = 0; i <= total_bits - n_val; i += n_val)` that builds the blocks
`block[j] = lsb_bits[pixel_order[i + j]]`; the first argument bounds the number of
iterations, the second is `i`. -/
def gather_loop (lsb_bits pixel_order : List Nat) (total_bits n_val : Nat) :
    Nat → Nat → Option (List (List Nat))
  | 0, i => if i + n_val ≤ total_bits then none else some []
  | fuel + 1, i =>
    if i + n_val ≤ total_bits then
      if i + n_val ≤ pixel_order.length then
        match read_all lsb_bits ((pixel_order.drop i).take n_val),
            gather_loop lsb_bits pixel_order total_bits n_val fuel (i + n_val) with
        | some block, some rest => some (block :: rest)
        | _, _ => none
      else none
    else some []

/-- The blocks of the permuted traversal; with `n_val = 0` the loop never advances. -/
def gather_blocks (lsb_bits pixel_order : List Nat) (n_val : Nat) : Option (List (List Nat)) :=
  gather_loop lsb_bits pixel_order lsb_bits.length n_val (lsb_bits.length + 1) 0

/-- The loop `modified_bits[pixel_order[i]] = new_bits[i]`, over the remaining indices. -/
def scatter_loop : List Nat → List Nat → List Nat → Option (List Nat)
  | modified_bits, [], _ => some modified_bits
  | _, _ :: _, [] => none
  | modified_bits, p :: pixel_order, b :: new_bits =>
    if p < modified_bits.length then scatter_loop (modified_bits.set p b) pixel_order new_bits
    else none

/-- The copy `modified_bits = lsb_bits`, then the scatter loop for `i < total_bits`. -/
def scatter (lsb_bits pixel_order new_bits : List Nat) : Option (List Nat) :=
  if lsb_bits.length ≤ pixel_order.length then
    scatter_loop lsb_bits (pixel_order.take lsb_bits.length) new_bits
  else none

/-- The bit-level core of `encode_image_lsb_random`: from `lsb_bits` and `message_bits`
to the `modified_bits` handed to `set_lsb_bits`. `pixel_order` is the value of
`generate_pixel_order(width, height, channels, seed)`. -/
def encode_image_lsb_random (lsb_bits message_bits : List Nat) (n_val r_val : Nat)
    (pixel_order : List Nat) : EncodeResult :=
  let total_bits := lsb_bits.length
  match gather_blocks lsb_bits pixel_order n_val, split_blocks message_bits r_val with
  | some blocks_x, some blocks_m =>
    match encode_blocks blocks_x blocks_m n_val r_val total_bits with
    | some (some new_bits) =>
      match scatter lsb_bits pixel_order new_bits with
      | some modified_bits => .saved modified_bits
      | none => .undefined
    | some none => .too_long
    | none => .undefined
  | _, _ => .undefined

/-- The function `encode_image_lsb` from the loaded image on: `data` with its `width`,
`height` and `channels` as `stbi_load` returned them. An image that is not RGB or RGBA is
refused (`channels != 3 && channels != 4`); otherwise the LSBs are taken and the core
runs. The result is the bit sequence handed to `set_lsb_bits`. -/
def encode_image_lsb_loaded (data : List Nat) (width height channels : Nat)
    (message_bits : List Nat) (n_val r_val : Nat) : EncodeResult :=
  if channels ≠ 3 ∧ channels ≠ 4 then .unsupported
  else
    match get_lsb_bits data width height channels with
    | none => .undefined
    | some lsb_bits => encode_image_lsb lsb_bits message_bits n_val r_val

/-- The function `encode_image_lsb_random` from the loaded image on; it has no channel
check. `pixel_order` is the value of `generate_pixel_order(width, height, channels, seed)`. -/
def encode_image_lsb_random_loaded (data : List Nat) (width height channels : Nat)
    (message_bits : List Nat) (n_val r_val : Nat) (pixel_order : List Nat) : EncodeResult :=
  match get_lsb_bits data width height channels with
  | none => .undefined
  | some lsb_bits => encode_image_lsb_random lsb_bits message_bits n_val r_val pixel_order

/-- The bit-level core of `decode_image_lsb_random`, from `lsb_bits` on. -/
def decode_image_lsb_random (n : Nat) (lsb_bits : List Nat) (n_val r_val : Nat)
    (pixel_order : List Nat) : Option (List Nat) :=
  match gather_blocks lsb_bits pixel_order n_val with
  | none => none
  | some blocks_x => decode_blocks n blocks_x n_val r_val

/-! ## Bit packing of `main` -/

/-- The inner loop `for (j = 0; j < 8; ++j)` of the packing in `main`: with a bit left,
`byte = (byte << 1) | bits[i + j]`, else `byte <<= 1`, both stored into an
`unsigned char`. Arguments: iterations left, the bits from `i + j` on, `byte`. -/
def pack_byte : Nat → List Nat → Nat → Nat
  | 0, _, byte => byte
  | k + 1, [], byte => pack_byte k [] ((byte <<< 1) % 256)
  | k + 1, b :: rest, byte => pack_byte k rest (((byte <<< 1) ||| b) % 256)

/-- The outer loop `for (i = 0; i < bits.size(); i += 8)` of the packing, on the bits
from `i` on; the first argument bounds the number of iterations. -/
def pack_loop : Nat → List Nat → List Nat
  | 0, _ => []
  | fuel + 1, bits =>
    if bits = [] then [] else pack_byte 8 bits 0 :: pack_loop fuel (bits.drop 8)

/-- The bytes written to `lsb_bits_seq.bin` (and `lsb_bits_random.bin`) for a bit sequence. -/
def pack_bits (bits : List Nat) : List Nat :=
  pack_loop bits.length bits

/-- The loop `for (i = 7; i >= 0; --i) push_back((byte >> i) & 1)` for one byte read. -/
def unpack_byte (byte : Nat) : List Nat :=
  [7, 6, 5, 4, 3, 2, 1, 0].map (fun i => (byte >>> i) &&& 1)

/-- The bit sequence read back from the bytes of the file. -/
def unpack_bytes (bytes : List Nat) : List Nat :=
  (bytes.map unpack_byte).flatten

/-! ## Reference notions used in the statements -/

/-- XOR of the positions of the elements equal to `1`, the head having position `i`. -/
def xor_positions : Nat → List Nat → Nat
  | _, [] => 0
  | i, b :: x => (if b = 1 then i else 0) ^^^ xor_positions (i + 1) x

/-- The `r` low-order binary digits of `s`, most significant first. -/
def nat_bits : Nat → Nat → List Nat
  | 0, _ => []
  | r + 1, s => nat_bits r (s / 2) ++ [s % 2]

/-- Number of positions at which two sequences differ (over their common length). -/
def hamming : List Nat → List Nat → Nat
  | a :: x, b :: y => (if a = b then 0 else 1) + hamming x y
  | _, _ => 0

/-- Every element is `0` or `1`. -/
def is_bits (v : List Nat) : Prop := ∀ b ∈ v, b ≤ 1

instance (v : List Nat) : Decidable (is_bits v) := by
  unfold is_bits; infer_instance

/-- The block `x` with the element at 0-based index `idx` XOR-ed with `1`. -/
def flip_at : List Nat → Nat → List Nat
  | [], _ => []
  | a :: x, 0 => (a ^^^ 1) :: x
  | a :: x, idx + 1 => a :: flip_at x idx

/-- The whole blocks of `size` consecutive elements of `bits`; a shorter tail is left out. -/
def full_blocks (bits : List Nat) (size : Nat) : List (List Nat) :=
  split_loop bits.length (bits.take (size * (bits.length / size))) size

/-- The 1-based positions of the elements equal to `1`, the head having position `i`. -/
def positions_from : Nat → List Nat → List Nat
  | _, [] => []
  | i, b :: x => if b = 1 then i :: positions_from (i + 1) x else positions_from (i + 1) x

/-- The 1-based positions of the set bits of a block, in increasing order. -/
def set_positions (x : List Nat) : List Nat := positions_from 1 x

/-- XOR of all the numbers of a list. -/
def xor_all (l : List Nat) : Nat := l.foldr (fun a acc => a ^^^ acc) 0

/-- The part of a bit sequence that lies in block `j` of size `size`. -/
def window (bits : List Nat) (size j : Nat) : List Nat :=
  (bits.drop (size * j)).take size

/-! ## The syndrome -/

theorem xor_positions_append (i : Nat) (x y : List Nat) :
    xor_positions i (x ++ y) = xor_positions i x ^^^ xor_positions (i + x.length) y := by
  induction x generalizing i with
  | nil => simp [xor_positions]
  | cons a x ih =>
    rw [List.cons_append, xor_positions, xor_positions, ih, Nat.xor_assoc, List.length_cons]
    congr 3
    omega

theorem syndrom_succ (x : List Nat) (k : Nat) :
    syndrom x (k + 1) = syndrom_step x (syndrom x k) k := by
  simp [syndrom, List.range_succ, List.foldl_append]

theorem syndrom_eq (x : List Nat) (k : Nat) (h : k ≤ x.length) :
    syndrom x k = some (xor_positions 1 (x.take k)) := by
  induction k with
  | zero => simp [syndrom, xor_positions]
  | succ k ih =>
    have hk : k < x.length := h
    rw [syndrom_succ, ih (Nat.le_of_lt hk), List.take_succ, xor_positions_append]
    simp only [syndrom_step, List.getElem?_eq_getElem hk, Option.toList, List.length_take,
      Nat.min_eq_left (Nat.le_of_lt hk), xor_positions]
    split <;> simp [Nat.add_comm]

theorem syndrom_of_length (x : List Nat) : syndrom x x.length = some (xor_positions 1 x) := by
  rw [syndrom_eq x x.length (Nat.le_refl _), List.take_length]

theorem syndrom_none (x : List Nat) (k : Nat) (h : x.length < k) : syndrom x k = none := by
  induction k with
  | zero => omega
  | succ k ih =>
    rw [syndrom_succ]
    by_cases hk : x.length < k
    · rw [ih hk]; rfl
    · have : x[k]? = none := List.getElem?_eq_none (by omega)
      unfold syndrom_step
      rw [this]
      cases syndrom x k <;> rfl

theorem syndrom_isSome (x : List Nat) (k s : Nat) (h : syndrom x k = some s) : k ≤ x.length := by
  by_contra hc
  rw [syndrom_none x k (by omega)] at h
  cases h

theorem xor_positions_lt (r i : Nat) (x : List Nat) (h : i + x.length ≤ 2 ^ r) :
    xor_positions i x < 2 ^ r := by
  induction x generalizing i with
  | nil => simp [xor_positions]
  | cons a x ih =>
    simp only [List.length_cons] at h
    simp only [xor_positions]
    apply Nat.xor_lt_two_pow
    · split
      · omega
      · exact Nat.two_pow_pos r
    · exact ih (i + 1) (by omega)

/-! ## Flipping one element -/

theorem apply_error_eq (x : List Nat) (idx : Nat) (h : idx < x.length) :
    apply_error x x.length idx = some (flip_at x idx) := by
  unfold apply_error
  rw [if_pos h, List.take_length]
  congr 1
  induction x generalizing idx with
  | nil => simp at h
  | cons a x ih =>
    cases idx with
    | zero =>
      simp only [List.length_cons, List.replicate_succ, List.set_cons_zero, List.zipWith_cons_cons,
        flip_at]
      congr 1
      clear ih h
      induction x with
      | nil => rfl
      | cons b x ihx => simp [List.replicate_succ, ihx]
    | succ j =>
      simp only [List.length_cons, List.replicate_succ, List.set_cons_succ,
        List.zipWith_cons_cons, flip_at, Nat.xor_zero]
      congr 1
      exact ih j (by simpa using h)

theorem flip_at_length (x : List Nat) (idx : Nat) : (flip_at x idx).length = x.length := by
  induction x generalizing idx with
  | nil => rfl
  | cons a x ih => cases idx <;> simp [flip_at, ih]

theorem flip_at_hamming (x : List Nat) (idx : Nat) : hamming x (flip_at x idx) ≤ 1 := by
  have hrefl : ∀ y : List Nat, hamming y y = 0 := by
    intro y
    induction y with
    | nil => rfl
    | cons b y ih => simp [hamming, ih]
  induction x generalizing idx with
  | nil => simp [flip_at, hamming]
  | cons a x ih =>
    cases idx with
    | zero => simp only [flip_at, hamming, hrefl]; split <;> omega
    | succ j => simp only [flip_at, hamming, if_true]; have := ih j; omega

theorem flip_at_bits (x : List Nat) (idx : Nat) (hx : is_bits x) : is_bits (flip_at x idx) := by
  induction x generalizing idx with
  | nil => simpa [flip_at] using hx
  | cons a x ih =>
    have ha : a ≤ 1 := hx a (by simp)
    have hx' : is_bits x := fun b hb => hx b (by simp [hb])
    cases idx with
    | zero =>
      intro b hb
      simp only [flip_at, List.mem_cons] at hb
      rcases hb with rfl | hb
      · interval_cases a <;> decide
      · exact hx' b hb
    | succ j =>
      intro b hb
      simp only [flip_at, List.mem_cons] at hb
      rcases hb with rfl | hb
      · exact ha
      · exact ih j hx' b hb

theorem flip_at_xor_positions (i : Nat) (x : List Nat) (idx : Nat) (hx : is_bits x)
    (h : idx < x.length) :
    xor_positions i (flip_at x idx) = xor_positions i x ^^^ (i + idx) := by
  induction x generalizing idx i with
  | nil => simp at h
  | cons a x ih =>
    have ha : a ≤ 1 := hx a (by simp)
    have hx' : is_bits x := fun b hb => hx b (by simp [hb])
    cases idx with
    | zero =>
      simp only [flip_at, xor_positions, Nat.add_zero]
      interval_cases a
      · simp [Nat.xor_comm]
      · simp only [Nat.xor_self, if_true, Nat.zero_ne_one, if_false, Nat.zero_xor]
        rw [Nat.xor_comm i, Nat.xor_assoc, Nat.xor_self, Nat.xor_zero]
    | succ j =>
      simp only [flip_at, xor_positions]
      rw [ih (i + 1) j hx' (by simpa using h), ← Nat.xor_assoc]
      congr 1
      omega

/-! ## Binary digits -/

theorem nat_bits_length (r s : Nat) : (nat_bits r s).length = r := by
  induction r generalizing s with
  | zero => rfl
  | succ r ih => simp [nat_bits, ih]

theorem nat_bits_is_bits (r s : Nat) : is_bits (nat_bits r s) := by
  induction r generalizing s with
  | zero => intro b hb; simp [nat_bits] at hb
  | succ r ih =>
    intro b hb
    simp only [nat_bits, List.mem_append, List.mem_singleton] at hb
    rcases hb with hb | rfl
    · exact ih (s / 2) b hb
    · omega

theorem fill_bits_eq (i temp : Nat) (a suf : List Nat) (h : a.length = i) :
    fill_bits i temp (a ++ suf) = nat_bits i temp ++ suf := by
  induction i generalizing temp a suf with
  | zero =>
    have : a = [] := List.length_eq_zero.mp h
    simp [fill_bits, nat_bits, this]
  | succ i ih =>
    obtain ⟨a', z, rfl⟩ : ∃ a' z, a = a' ++ [z] := by
      refine ⟨a.dropLast, a.getLast (by intro hc; simp [hc] at h), ?_⟩
      exact (List.dropLast_append_getLast _).symm
    have ha' : a'.length = i := by simpa using h
    have hset : (a' ++ [z] ++ suf).set i (temp % 2) = a' ++ ((temp % 2) :: suf) := by
      rw [List.append_assoc, List.set_append_right _ _ (by omega)]
      simp [ha']
    rw [fill_bits, hset, ih (temp / 2) a' _ ha', nat_bits]
    simp

theorem int_to_bits_eq (value r_val : Nat) : int_to_bits value r_val = nat_bits r_val value := by
  have := fill_bits_eq r_val value (List.replicate r_val 0) [] (by simp)
  simpa [int_to_bits] using this

theorem binvect_to_num_append (v : List Nat) (b : Nat) :
    binvect_to_num (v ++ [b]) = (binvect_to_num v <<< 1) ||| b := by
  simp [binvect_to_num, List.foldl_append]

theorem shift_or_bit (a b : Nat) (hb : b ≤ 1) : (a <<< 1) ||| b = 2 * a + b := by
  have := Nat.mul_add_lt_is_or (i := 1) (b := b) (by omega) a
  rw [Nat.shiftLeft_eq, Nat.mul_comm]
  simpa using this.symm

theorem binvect_to_num_nat_bits (r s : Nat) : binvect_to_num (nat_bits r s) = s % 2 ^ r := by
  induction r generalizing s with
  | zero => simp [nat_bits, binvect_to_num, Nat.mod_one]
  | succ r ih =>
    rw [nat_bits, binvect_to_num_append, ih, shift_or_bit _ _ (by omega), Nat.pow_succ',
      Nat.mod_mul]
    omega

theorem binvect_to_num_lt (v : List Nat) (hv : is_bits v) : binvect_to_num v < 2 ^ v.length := by
  induction v using List.reverseRecOn with
  | nil => simp [binvect_to_num]
  | append_singleton v b ih =>
    have hb : b ≤ 1 := hv b (by simp)
    have hv' : is_bits v := fun c hc => hv c (by simp [hc])
    have := ih hv'
    rw [binvect_to_num_append, shift_or_bit _ _ hb, List.length_append, List.length_singleton,
      Nat.pow_succ]
    omega

theorem nat_bits_binvect_to_num (v : List Nat) (hv : is_bits v) :
    nat_bits v.length (binvect_to_num v) = v := by
  induction v using List.reverseRecOn with
  | nil => rfl
  | append_singleton v b ih =>
    have hb : b ≤ 1 := hv b (by simp)
    have hv' : is_bits v := fun c hc => hv c (by simp [hc])
    rw [binvect_to_num_append, shift_or_bit _ _ hb, List.length_append, List.length_singleton,
      nat_bits]
    have h1 : (2 * binvect_to_num v + b) / 2 = binvect_to_num v := by omega
    have h2 : (2 * binvect_to_num v + b) % 2 = b := by omega
    rw [h1, h2, ih hv']

/-! ## The embedding rule -/

theorem task1_unfold (x m : List Nat) :
    task1 x m x.length =
      if xor_positions 1 x = binvect_to_num m then some x
      else if xor_positions 1 x ≠ 0 then
        apply_error x x.length ((binvect_to_num m ^^^ xor_positions 1 x) - 1)
      else apply_error x x.length (binvect_to_num m - 1) := by
  simp only [task1, syndrom_of_length]

theorem apply_error_some (x y : List Nat) (idx : Nat) (h : apply_error x x.length idx = some y) :
    idx < x.length ∧ y = flip_at x idx := by
  by_cases hi : idx < x.length
  · rw [apply_error_eq x idx hi] at h
    exact ⟨hi, (Option.some.inj h).symm⟩
  · simp [apply_error, hi] at h

/-- Every block `task1` returns is the input or the input with one element flipped. -/
theorem task1_some (x m y : List Nat) (h : task1 x m x.length = some y) :
    (y = x ∧ xor_positions 1 x = binvect_to_num m) ∨
      (xor_positions 1 x ≠ binvect_to_num m ∧
        ∃ idx, idx < x.length ∧ y = flip_at x idx ∧
          idx + 1 = binvect_to_num m ^^^ xor_positions 1 x) := by
  rw [task1_unfold] at h
  by_cases h1 : xor_positions 1 x = binvect_to_num m
  · rw [if_pos h1] at h
    exact Or.inl ⟨(Option.some.inj h).symm, h1⟩
  · rw [if_neg h1] at h
    have hne : binvect_to_num m ^^^ xor_positions 1 x ≠ 0 := by
      rw [Nat.xor_ne_zero]
      exact fun hc => h1 hc.symm
    right
    refine ⟨h1, ?_⟩
    by_cases h2 : xor_positions 1 x ≠ 0
    · rw [if_pos h2] at h
      obtain ⟨hi, hy⟩ := apply_error_some x y _ h
      exact ⟨_, hi, hy, by omega⟩
    · rw [if_neg h2] at h
      obtain ⟨hi, hy⟩ := apply_error_some x y _ h
      have h0 : xor_positions 1 x = 0 := by simpa using h2
      rw [h0, Nat.xor_zero] at hne ⊢
      exact ⟨_, hi, hy, by omega⟩

/-- With a Hamming block length `2 ^ r - 1` and a target below `2 ^ r`, the index
written by `task1` is inside the block. -/
theorem task1_defined (r : Nat) (x m : List Nat) (hn : x.length + 1 = 2 ^ r)
    (hm : binvect_to_num m < 2 ^ r) : ∃ y, task1 x m x.length = some y := by
  rw [task1_unfold]
  have hpos : xor_positions 1 x < 2 ^ r := xor_positions_lt r 1 x (by omega)
  have hx := Nat.xor_lt_two_pow hm hpos
  by_cases h1 : xor_positions 1 x = binvect_to_num m
  · exact ⟨x, by rw [if_pos h1]⟩
  · rw [if_neg h1]
    by_cases h2 : xor_positions 1 x ≠ 0
    · rw [if_pos h2, apply_error_eq x _ (by omega)]
      exact ⟨_, rfl⟩
    · rw [if_neg h2, apply_error_eq x _ (by omega)]
      exact ⟨_, rfl⟩

theorem hamming_self (y : List Nat) : hamming y y = 0 := by
  induction y with
  | nil => rfl
  | cons b y ih => simp [hamming, ih]

theorem task1_length (x m y : List Nat) (h : task1 x m x.length = some y) :
    y.length = x.length := by
  rcases task1_some x m y h with ⟨rfl, _⟩ | ⟨_, idx, _, rfl, _⟩
  · rfl
  · exact flip_at_length x idx

theorem task1_hamming (x m y : List Nat) (h : task1 x m x.length = some y) :
    hamming x y ≤ 1 := by
  rcases task1_some x m y h with ⟨rfl, _⟩ | ⟨_, idx, _, rfl, _⟩
  · rw [hamming_self]; omega
  · exact flip_at_hamming x idx

theorem task1_is_bits (x m y : List Nat) (hx : is_bits x) (h : task1 x m x.length = some y) :
    is_bits y := by
  rcases task1_some x m y h with ⟨rfl, _⟩ | ⟨_, idx, _, rfl, _⟩
  · exact hx
  · exact flip_at_bits x idx hx

theorem task1_xor_positions (x m y : List Nat) (hx : is_bits x)
    (h : task1 x m x.length = some y) : xor_positions 1 y = binvect_to_num m := by
  rcases task1_some x m y h with ⟨rfl, h1⟩ | ⟨_, idx, hi, rfl, hidx⟩
  · exact h1
  · rw [flip_at_xor_positions 1 x idx hx hi, Nat.add_comm 1 idx, hidx, Nat.xor_comm,
      Nat.xor_assoc, Nat.xor_self, Nat.xor_zero]

theorem task1_syndrom (x m y : List Nat) (hx : is_bits x) (h : task1 x m x.length = some y) :
    syndrom y x.length = some (binvect_to_num m) := by
  rw [← task1_length x m y h, syndrom_of_length, task1_xor_positions x m y hx h]

theorem encode_eq (x_ : List Nat) (r_val : Nat) :
    encode x_.length x_ r_val = some (nat_bits r_val (xor_positions 1 x_)) := by
  simp [encode, syndrom_of_length, int_to_bits_eq]

/-! ## Segmentation into blocks -/

theorem resize_block_length (block : List Nat) (size : Nat) (h : block.length ≤ size) :
    (resize_block block size).length = size := by
  simp only [resize_block, List.length_append, List.length_replicate]
  omega

theorem resize_block_full (block : List Nat) (size : Nat) (h : block.length = size) :
    resize_block block size = block := by
  simp [resize_block, h]

theorem split_loop_nil (fuel size : Nat) : split_loop fuel [] size = [] := by
  cases fuel <;> simp [split_loop]

theorem split_loop_fuel (size : Nat) (hs : 0 < size) (f1 f2 : Nat) (bits : List Nat)
    (h1 : bits.length ≤ f1) (h2 : bits.length ≤ f2) :
    split_loop f1 bits size = split_loop f2 bits size := by
  induction f1 generalizing f2 bits with
  | zero =>
    have : bits = [] := List.length_eq_zero.mp (by omega)
    subst this
    rw [split_loop_nil, split_loop_nil]
  | succ f1 ih =>
    by_cases hb : bits = []
    · subst hb
      rw [split_loop_nil, split_loop_nil]
    · have hpos : 0 < bits.length := List.length_pos.mpr hb
      cases f2 with
      | zero => omega
      | succ f2 =>
        simp only [split_loop, if_neg hb]
        congr 1
        apply ih <;> simp only [List.length_drop] <;> omega

theorem split_loop_cons (size : Nat) (hs : 0 < size) (fuel : Nat) (block rest : List Nat)
    (hb : block.length = size) (hf : (block ++ rest).length ≤ fuel) :
    split_loop fuel (block ++ rest) size = block :: split_loop rest.length rest size := by
  have hne : block ++ rest ≠ [] := by
    intro hc
    have := congrArg List.length hc
    simp only [List.length_append, List.length_nil] at this
    omega
  cases fuel with
  | zero => simp only [List.length_append] at hf; omega
  | succ fuel =>
    simp only [split_loop, if_neg hne]
    rw [List.take_left' hb, List.drop_left' hb, resize_block_full _ _ hb]
    congr 1
    apply split_loop_fuel size hs
    · simp only [List.length_append] at hf; omega
    · exact Nat.le_refl _

/-- Blocks of length `size` laid end to end are recovered by the segmentation. -/
theorem split_loop_flatten (size : Nat) (hs : 0 < size) (blocks : List (List Nat))
    (rest : List Nat) (hb : ∀ b ∈ blocks, b.length = size) (fuel : Nat)
    (hf : (blocks.flatten ++ rest).length ≤ fuel) :
    split_loop fuel (blocks.flatten ++ rest) size =
      blocks ++ split_loop rest.length rest size := by
  induction blocks generalizing fuel with
  | nil =>
    simp only [List.flatten_nil, List.nil_append] at hf ⊢
    exact split_loop_fuel size hs _ _ _ hf (Nat.le_refl _)
  | cons b blocks ih =>
    simp only [List.flatten_cons, List.append_assoc] at hf ⊢
    rw [split_loop_cons size hs fuel b _ (hb b (by simp)) hf,
      ih (fun c hc => hb c (by simp [hc])) _ (Nat.le_refl _)]
    rfl

theorem split_loop_block_length (size : Nat) (fuel : Nat) (bits : List Nat) :
    ∀ b ∈ split_loop fuel bits size, b.length = size := by
  induction fuel generalizing bits with
  | zero => intro b hb; simp [split_loop] at hb
  | succ fuel ih =>
    intro b hb
    by_cases hne : bits = []
    · simp [split_loop, hne] at hb
    · simp only [split_loop, if_neg hne, List.mem_cons] at hb
      rcases hb with rfl | hb
      · exact resize_block_length _ _ (by simp [List.length_take])
      · exact ih _ b hb

theorem split_loop_length (size : Nat) (hs : 0 < size) (fuel : Nat) (bits : List Nat)
    (hf : bits.length ≤ fuel) :
    (split_loop fuel bits size).length = (bits.length + size - 1) / size := by
  induction fuel generalizing bits with
  | zero =>
    have : bits = [] := List.length_eq_zero.mp (by omega)
    subst this
    simp only [split_loop, List.length_nil, Nat.zero_add]
    exact (Nat.div_eq_of_lt (by omega)).symm
  | succ fuel ih =>
    by_cases hne : bits = []
    · subst hne
      simp only [split_loop, if_true, List.length_nil, Nat.zero_add]
      exact (Nat.div_eq_of_lt (by omega)).symm
    · have hpos : 0 < bits.length := List.length_pos.mpr hne
      simp only [split_loop, if_neg hne, List.length_cons]
      rw [ih _ (by simp only [List.length_drop]; omega), List.length_drop]
      by_cases hle : size ≤ bits.length
      · have : bits.length + size - 1 = (bits.length - size + size - 1) + size := by omega
        rw [this, Nat.add_div_right _ hs]
      · have h0 : (bits.length - size + size - 1) / size = 0 :=
          Nat.div_eq_of_lt (by omega)
        have h1 : (bits.length + size - 1) / size = 1 := by
          have : bits.length + size - 1 = (bits.length - 1) + size := by omega
          rw [this, Nat.add_div_right _ hs, Nat.div_eq_of_lt (by omega)]
        rw [h0, h1]

theorem split_loop_is_bits (size : Nat) (fuel : Nat) (bits : List Nat) (hb : is_bits bits) :
    ∀ b ∈ split_loop fuel bits size, is_bits b := by
  induction fuel generalizing bits with
  | zero => intro b hb; simp [split_loop] at hb
  | succ fuel ih =>
    intro b hmem
    by_cases hne : bits = []
    · simp [split_loop, hne] at hmem
    · simp only [split_loop, if_neg hne, List.mem_cons] at hmem
      rcases hmem with rfl | hmem
      · intro c hc
        simp only [resize_block, List.mem_append, List.mem_replicate] at hc
        rcases hc with hc | ⟨_, rfl⟩
        · exact hb c (List.mem_of_mem_take hc)
        · omega
      · exact ih _ (fun c hc => hb c (List.mem_of_mem_drop hc)) b hmem

/-- The blocks laid end to end are the input followed by the zero padding. -/
theorem split_loop_flatten_eq (size : Nat) (hs : 0 < size) (fuel : Nat) (bits : List Nat)
    (hf : bits.length ≤ fuel) :
    (split_loop fuel bits size).flatten =
      bits ++ List.replicate ((size - bits.length % size) % size) 0 := by
  induction fuel generalizing bits with
  | zero =>
    have : bits = [] := List.length_eq_zero.mp (by omega)
    subst this
    simp [split_loop]
  | succ fuel ih =>
    by_cases hne : bits = []
    · subst hne
      simp [split_loop]
    · have hpos : 0 < bits.length := List.length_pos.mpr hne
      simp only [split_loop, if_neg hne, List.flatten_cons]
      rw [ih _ (by simp only [List.length_drop]; omega), List.length_drop]
      by_cases hle : size ≤ bits.length
      · have hmod : (bits.length - size) % size = bits.length % size := by
          conv_rhs => rw [← Nat.sub_add_cancel hle, Nat.add_mod_right]
        rw [hmod, resize_block_full _ _ (by simp [List.length_take]; omega),
          ← List.append_assoc, List.take_append_drop]
      · have hlt : bits.length < size := by omega
        have ht : bits.take size = bits := List.take_of_length_le (by omega)
        have hd : bits.drop size = [] := List.drop_of_length_le (by omega)
        have hm1 : bits.length % size = bits.length := Nat.mod_eq_of_lt hlt
        have hm2 : (size - bits.length) % size = size - bits.length :=
          Nat.mod_eq_of_lt (by omega)
        have hz : bits.length - size = 0 := by omega
        rw [ht, hd, hz, hm1, hm2]
        simp [resize_block]

/-! ## Embedding a list of chunks, and extracting it again -/

/-- Over carrier blocks of the Hamming length `2 ^ r - 1` and chunks of value below
`2 ^ r`, the embedding loops return the embedded blocks followed by the untouched ones;
each embedded block keeps its length, and over bit blocks it carries the syndrome of
its chunk. -/
theorem embed_blocks_spec (r n_val : Nat) (hn : n_val + 1 = 2 ^ r) (blocks_m X R : List (List Nat))
    (hX : ∀ x ∈ X, x.length = n_val) (hm : ∀ m ∈ blocks_m, binvect_to_num m < 2 ^ r)
    (hlen : X.length = blocks_m.length) :
    ∃ T, embed_blocks (X ++ R) blocks_m n_val = some (T ++ R) ∧ T.length = X.length ∧
      (∀ t ∈ T, t.length = n_val) ∧
      ((∀ x ∈ X, is_bits x) →
        T.map (xor_positions 1) = blocks_m.map binvect_to_num ∧ ∀ t ∈ T, is_bits t) := by
  induction blocks_m generalizing X with
  | nil =>
    have : X = [] := List.length_eq_zero.mp hlen
    subst this
    refine ⟨[], ?_, rfl, by simp, fun _ => by simp⟩
    cases R <;> rfl
  | cons m blocks_m ih =>
    cases X with
    | nil => simp at hlen
    | cons x X =>
      have hxl : x.length = n_val := hX x (by simp)
      obtain ⟨y, hy⟩ := task1_defined r x m (by rw [hxl]; exact hn) (hm m (by simp))
      obtain ⟨T, hT, hTl, hTn, hTb⟩ := ih X (fun z hz => hX z (by simp [hz]))
        (fun z hz => hm z (by simp [hz])) (by simpa using hlen)
      rw [hxl] at hy
      refine ⟨y :: T, ?_, by simp [hTl], ?_, ?_⟩
      · rw [List.cons_append, embed_blocks, hy, hT]
        rfl
      · intro t ht
        simp only [List.mem_cons] at ht
        rcases ht with rfl | ht
        · rw [← hxl] at hy
          rw [task1_length x m t hy, hxl]
        · exact hTn t ht
      · intro hb
        have hxb : is_bits x := hb x (by simp)
        obtain ⟨hs, hbits⟩ := hTb (fun z hz => hb z (by simp [hz]))
        rw [← hxl] at hy
        refine ⟨?_, ?_⟩
        · simp only [List.map_cons, hs, task1_xor_positions x m y hxb hy]
        · intro t ht
          simp only [List.mem_cons] at ht
          rcases ht with rfl | ht
          · exact task1_is_bits x m t hxb hy
          · exact hbits t ht

/-- The extraction loop appends the `r_val`-digit syndromes of the blocks from index `i`
on, at most `left` of them, stopping at the end of the block list. -/
theorem extract_loop_eq (n r_val : Nat) (blocks_x : List (List Nat))
    (hb : ∀ b ∈ blocks_x, b.length = n) (left i : Nat) (message_bits : List Nat) :
    extract_loop n blocks_x r_val left i message_bits =
      some (message_bits ++
        (((blocks_x.drop i).take left).map (fun b => nat_bits r_val (xor_positions 1 b))).flatten) := by
  induction left generalizing i message_bits with
  | zero => simp [extract_loop]
  | succ left ih =>
    by_cases hi : i < blocks_x.length
    · have hlen : blocks_x[i].length = n := hb _ (List.getElem_mem hi)
      have he := encode_eq blocks_x[i] r_val
      rw [hlen] at he
      rw [extract_loop]
      simp only [List.getElem?_eq_getElem hi, he]
      rw [ih, List.drop_eq_getElem_cons hi, List.take_succ_cons, List.map_cons,
        List.flatten_cons, List.append_assoc]
    · have hnone : blocks_x[i]? = none := List.getElem?_eq_none (by omega)
      have hdrop : blocks_x.drop i = [] := List.drop_of_length_le (by omega)
      rw [extract_loop]
      simp [hnone, hdrop]

theorem decode_blocks_eq (n r_val : Nat) (header : List Nat) (blocks : List (List Nat))
    (hb : ∀ b ∈ header :: blocks, b.length = n) :
    decode_blocks n (header :: blocks) n r_val =
      some (((blocks.take (xor_positions 1 header)).map
        (fun b => nat_bits r_val (xor_positions 1 b))).flatten) := by
  have hh : header.length = n := hb header (by simp)
  have hs := syndrom_of_length header
  rw [hh] at hs
  simp only [decode_blocks, List.getElem?_cons_zero, hs]
  rw [extract_loop_eq n r_val _ hb]
  simp

/-- Decoding blocks whose first `ms.length + 1` elements carry, as syndromes, the count
`ms.length` and then the values of the chunks `ms` returns the chunks laid end to end. -/
theorem decode_blocks_embedded (r n : Nat) (ms T R : List (List Nat)) (header : List Nat)
    (hbl : ∀ b ∈ T ++ R, b.length = n)
    (hms : ∀ m ∈ ms, m.length = r ∧ is_bits m)
    (hh : binvect_to_num header = ms.length)
    (hT : T.map (xor_positions 1) = (header :: ms).map binvect_to_num) :
    decode_blocks n (T ++ R) n r = some ms.flatten := by
  cases T with
  | nil => simp at hT
  | cons t0 T =>
    simp only [List.map_cons, List.cons.injEq] at hT
    obtain ⟨h0, hT⟩ := hT
    have hlen : T.length = ms.length := by
      have := congrArg List.length hT
      simpa using this
    rw [List.cons_append, decode_blocks_eq n r t0 (T ++ R) (by simpa using hbl), h0, hh,
      ← hlen, List.take_left']
    · congr 2
      have : T.map (fun b => nat_bits r (xor_positions 1 b)) =
          (T.map (xor_positions 1)).map (nat_bits r) := by simp
      rw [this, hT, List.map_map]
      conv_rhs => rw [← List.map_id ms]
      apply List.map_congr_left
      intro m hm
      obtain ⟨hl, hb⟩ := hms m hm
      simp only [Function.comp, id]
      rw [← hl]
      exact nat_bits_binvect_to_num m hb
    · rfl

/-! ## The sequential encoder and decoder -/

theorem exact_blocks (size j : Nat) (bits : List Nat) (h : bits.length = size * j) :
    ∃ X : List (List Nat), X.length = j ∧ (∀ x ∈ X, x.length = size) ∧ X.flatten = bits := by
  induction j generalizing bits with
  | zero =>
    have : bits = [] := List.length_eq_zero.mp (by simpa using h)
    exact ⟨[], rfl, by simp, by simp [this]⟩
  | succ j ih =>
    have hlen : size ≤ bits.length := by rw [h, Nat.mul_succ]; omega
    obtain ⟨X, hX, hXl, hXf⟩ := ih (bits.drop size) (by
      rw [List.length_drop, h, Nat.mul_succ]; omega)
    refine ⟨bits.take size :: X, by simp [hX], ?_, ?_⟩
    · intro x hx
      simp only [List.mem_cons] at hx
      rcases hx with rfl | hx
      · simp [List.length_take, hlen]
      · exact hXl x hx
    · simp [hXf]

theorem flatten_length_uniform (size : Nat) (X : List (List Nat))
    (h : ∀ x ∈ X, x.length = size) : X.flatten.length = size * X.length := by
  induction X with
  | nil => simp
  | cons x X ih =>
    simp only [List.flatten_cons, List.length_append, List.length_cons,
      h x (by simp), ih (fun y hy => h y (by simp [hy])), Nat.mul_succ]
    omega

theorem resize_prefix (v z : List Nat) : resize (v ++ z) v.length = v := by
  simp [resize, List.take_left']

theorem is_bits_of_flatten (X : List (List Nat)) (h : is_bits X.flatten) :
    ∀ x ∈ X, is_bits x := by
  intro x hx b hb
  exact h b (List.mem_flatten.mpr ⟨x, hx, hb⟩)

/-- On Hamming-length bit blocks `X` (one per chunk and one for the header) and at most
`n` chunks, the shared encoder part embeds without error, and whatever block list starts
with the embedded blocks `T` decodes to the chunks. -/
theorem encode_blocks_ok (r n total : Nat) (hn : n + 1 = 2 ^ r)
    (chunks X R : List (List Nat))
    (hX : ∀ x ∈ X, x.length = n) (hXb : ∀ x ∈ X, is_bits x)
    (hch : ∀ m ∈ chunks, m.length = r ∧ is_bits m)
    (hlen : X.length = chunks.length + 1) (hK : chunks.length ≤ n) :
    ∃ T, encode_blocks (X ++ R) chunks n r total =
        some (some (resize (T.flatten ++ R.flatten) total)) ∧
      T.length = X.length ∧ (∀ t ∈ T, t.length = n) ∧ (∀ t ∈ T, is_bits t) ∧
      ∀ R', (∀ b ∈ R', b.length = n) → decode_blocks n (T ++ R') n r = some chunks.flatten := by
  have hKlt : chunks.length < 2 ^ r := by omega
  have hh : binvect_to_num (int_to_bits chunks.length r) = chunks.length := by
    rw [int_to_bits_eq, binvect_to_num_nat_bits, Nat.mod_eq_of_lt hKlt]
  have hms : ∀ m ∈ int_to_bits chunks.length r :: chunks, binvect_to_num m < 2 ^ r := by
    intro m hm
    simp only [List.mem_cons] at hm
    rcases hm with rfl | hm
    · rw [hh]; exact hKlt
    · obtain ⟨hl, hb⟩ := hch m hm
      have := binvect_to_num_lt m hb
      rwa [hl] at this
  obtain ⟨T, hT, hTl, hTn, hTb⟩ := embed_blocks_spec r n hn _ X R hX hms (by simp [hlen])
  obtain ⟨hTs, hTbits⟩ := hTb hXb
  refine ⟨T, ?_, hTl, hTn, hTbits, ?_⟩
  · have hcap : ¬ (int_to_bits chunks.length r :: chunks).length > (X ++ R).length := by
      simp only [List.length_cons, List.length_append]
      omega
    simp only [encode_blocks, if_neg hcap, hT, List.flatten_append]
  · intro R' hR
    apply decode_blocks_embedded r n chunks T R' _ _ hch hh hTs
    intro b hb
    simp only [List.mem_append] at hb
    rcases hb with hb | hb
    · exact hTn b hb
    · exact hR b hb

theorem chunk_count_le (r k len : Nat) (hr : 0 < r) (h : len ≤ k * r) :
    (len + r - 1) / r ≤ k := by
  have : (len + r - 1) / r < k + 1 := by
    rw [Nat.div_lt_iff_lt_mul hr]
    have : (k + 1) * r = k * r + r := by ring
    omega
  omega

/-- Sequential round trip over a carrier that starts with `chunks + 1` whole blocks. -/
theorem seq_encode_decode (r n : Nat) (carrier message : List Nat)
    (hr : 0 < r) (hn : n + 1 = 2 ^ r)
    (hc : n * ((message.length + r - 1) / r + 1) ≤ carrier.length)
    (hK : (message.length + r - 1) / r ≤ n)
    (hcb : is_bits carrier) (hmb : is_bits message) :
    ∃ new_bits, encode_image_lsb carrier message n r = .saved new_bits ∧
      decode_image_lsb n new_bits n r =
        some (message ++ List.replicate ((r - message.length % r) % r) 0) := by
  have hn0 : 0 < n := by
    have : 2 ^ 1 ≤ 2 ^ r := Nat.pow_le_pow_right (by decide) hr
    omega
  have hn' : n ≠ 0 := by omega
  have hr' : r ≠ 0 := by omega
  -- the message chunks
  have hchl : (split_loop message.length message r).length = (message.length + r - 1) / r :=
    split_loop_length r hr _ _ (Nat.le_refl _)
  have hch : ∀ m ∈ split_loop message.length message r, m.length = r ∧ is_bits m :=
    fun m hm => ⟨split_loop_block_length r _ _ m hm, split_loop_is_bits r _ _ hmb m hm⟩
  have hchf := split_loop_flatten_eq r hr message.length message (Nat.le_refl _)
  have hsplitm : split_blocks message r = some (split_loop message.length message r) := by
    simp only [split_blocks, if_neg hr']
  generalize split_loop message.length message r = chunks at hchl hch hchf hsplitm
  rw [← hchl] at hc hK
  -- the carrier starts with `chunks.length + 1` whole blocks
  obtain ⟨X, hXlen, hXl, hXf⟩ := exact_blocks n (chunks.length + 1)
    (carrier.take (n * (chunks.length + 1))) (by simp [List.length_take]; omega)
  have hcar : carrier = X.flatten ++ carrier.drop (n * (chunks.length + 1)) := by
    rw [hXf, List.take_append_drop]
  generalize carrier.drop (n * (chunks.length + 1)) = rest at hcar
  subst hcar
  have hXb : ∀ x ∈ X, is_bits x :=
    is_bits_of_flatten X (fun b hb => hcb b (List.mem_append_left _ hb))
  have hsplit : split_blocks (X.flatten ++ rest) n =
      some (X ++ split_loop rest.length rest n) := by
    simp only [split_blocks, if_neg hn']
    rw [split_loop_flatten n hn0 X rest hXl _ (Nat.le_refl _)]
  obtain ⟨T, hT, hTlen, hTl, _, hdec⟩ := encode_blocks_ok r n (X.flatten ++ rest).length hn
    chunks X (split_loop rest.length rest n) hXl hXb hch hXlen hK
  have hres : resize (T.flatten ++ (split_loop rest.length rest n).flatten)
      (X.flatten ++ rest).length = T.flatten ++ rest := by
    rw [split_loop_flatten_eq n hn0 _ _ (Nat.le_refl _), ← List.append_assoc]
    have : (X.flatten ++ rest).length = (T.flatten ++ rest).length := by
      simp only [List.length_append, flatten_length_uniform n X hXl,
        flatten_length_uniform n T hTl, hTlen]
    rw [this, resize_prefix]
  refine ⟨T.flatten ++ rest, ?_, ?_⟩
  · rw [encode_image_lsb, hsplit, hsplitm]
    simp only [hT, hres]
  · simp only [decode_image_lsb, split_blocks, if_neg hn']
    rw [split_loop_flatten n hn0 T rest hTl _ (Nat.le_refl _),
      hdec _ (split_loop_block_length n _ _), hchf]

/-! ## The permuted traversal -/

theorem read_all_eq (v ps : List Nat) (h : ∀ p ∈ ps, p < v.length) :
    read_all v ps = some (ps.map (fun p => v.getD p 0)) := by
  induction ps with
  | nil => rfl
  | cons p ps ih =>
    have hp : p < v.length := h p (by simp)
    rw [read_all, ih (fun q hq => h q (by simp [hq])), List.getElem?_eq_getElem hp]
    simp [List.getD_eq_getElem?_getD, List.getElem?_eq_getElem hp]

theorem full_blocks_short (bits : List Nat) (size : Nat) (h : bits.length < size) :
    full_blocks bits size = [] := by
  simp [full_blocks, Nat.div_eq_of_lt h, split_loop_nil]

theorem full_blocks_step (bits : List Nat) (size : Nat) (hs : 0 < size)
    (h : size ≤ bits.length) :
    full_blocks bits size = bits.take size :: full_blocks (bits.drop size) size := by
  have hq : bits.length / size = (bits.length - size) / size + 1 := by
    conv_lhs => rw [← Nat.sub_add_cancel h]
    exact Nat.add_div_right _ hs
  have htake : bits.take (size * (bits.length / size)) =
      bits.take size ++ (bits.drop size).take (size * ((bits.length - size) / size)) := by
    rw [hq, Nat.mul_succ, Nat.add_comm, List.take_add]
  have hfuel : (bits.drop size).take (size * ((bits.length - size) / size)) =
      (bits.drop size).take (size * ((bits.drop size).length / size)) := by
    rw [List.length_drop]
  unfold full_blocks
  rw [htake, split_loop_cons size hs _ _ _ (by simp [List.length_take, h]) (by
    simp only [List.length_append, List.length_take, List.length_drop]; omega), hfuel]
  congr 1
  apply split_loop_fuel size hs
  · exact Nat.le_refl _
  · simp only [List.length_take]; omega

/-- Blocks of length `size` laid end to end, followed by fewer than `size` elements. -/
theorem full_blocks_flatten (size : Nat) (hs : 0 < size) (blocks : List (List Nat))
    (tail : List Nat) (hb : ∀ b ∈ blocks, b.length = size) (ht : tail.length < size) :
    full_blocks (blocks.flatten ++ tail) size = blocks := by
  have hlen : (blocks.flatten ++ tail).length = size * blocks.length + tail.length := by
    rw [List.length_append, flatten_length_uniform size blocks hb]
  have hq : (size * blocks.length + tail.length) / size = blocks.length := by
    rw [Nat.mul_comm, Nat.add_comm, Nat.add_mul_div_right _ _ hs, Nat.div_eq_of_lt ht]
    omega
  unfold full_blocks
  rw [hlen, hq, ← flatten_length_uniform size blocks hb, List.take_left']
  · have := split_loop_flatten size hs blocks [] hb
      (blocks.flatten.length + tail.length) (by simp)
    simpa [split_loop_nil] using this
  · rfl

theorem full_blocks_block_length (bits : List Nat) (size : Nat) :
    ∀ b ∈ full_blocks bits size, b.length = size :=
  split_loop_block_length size _ _

theorem full_blocks_is_bits (bits : List Nat) (size : Nat) (h : is_bits bits) :
    ∀ b ∈ full_blocks bits size, is_bits b :=
  split_loop_is_bits size _ _ (fun c hc => h c (List.mem_of_mem_take hc))

theorem full_blocks_length (bits : List Nat) (size : Nat) (hs : 0 < size) :
    (full_blocks bits size).length = bits.length / size := by
  unfold full_blocks
  have hle : size * (bits.length / size) ≤ bits.length := Nat.mul_div_le _ _
  rw [split_loop_length size hs _ _ (by simp [List.length_take]), List.length_take,
    Nat.min_eq_left hle]
  have : size * (bits.length / size) + size - 1 = (size - 1) + size * (bits.length / size) := by
    omega
  rw [this, Nat.add_mul_div_left _ _ hs, Nat.div_eq_of_lt (by omega)]
  omega

theorem full_blocks_flatten_length (bits : List Nat) (size : Nat) (hs : 0 < size) :
    (full_blocks bits size).flatten.length = size * (bits.length / size) := by
  rw [flatten_length_uniform size _ (full_blocks_block_length bits size),
    full_blocks_length bits size hs]

/-- The gather loop reads the whole blocks of the carrier taken in the pixel order. -/
theorem gather_loop_eq (v po : List Nat) (n_val : Nat) (hs : 0 < n_val)
    (hpo : ∀ p ∈ po, p < v.length) (fuel i : Nat) (hf : po.length + 1 ≤ i + fuel) :
    gather_loop v po po.length n_val fuel i =
      some (full_blocks ((po.map (fun p => v.getD p 0)).drop i) n_val) := by
  induction fuel generalizing i with
  | zero =>
    have : ¬ i + n_val ≤ po.length := by omega
    rw [gather_loop, if_neg this, full_blocks_short _ _ (by simp; omega)]
  | succ fuel ih =>
    by_cases hle : i + n_val ≤ po.length
    · have hstep := full_blocks_step ((po.map (fun p => v.getD p 0)).drop i) n_val hs (by
        rw [List.length_drop, List.length_map]; omega)
      rw [gather_loop, if_pos hle, if_pos hle, ih (i + n_val) (by omega),
        read_all_eq v _ (fun p hp => hpo p (List.mem_of_mem_drop (List.mem_of_mem_take hp))),
        hstep, List.drop_drop]
      simp only [List.map_take, List.map_drop, Nat.add_comm]
    · rw [gather_loop, if_neg hle, full_blocks_short _ _ (by simp; omega)]

theorem gather_blocks_eq (v po : List Nat) (n_val : Nat) (hs : 0 < n_val)
    (hlen : po.length = v.length) (hpo : ∀ p ∈ po, p < v.length) :
    gather_blocks v po n_val = some (full_blocks (po.map (fun p => v.getD p 0)) n_val) := by
  unfold gather_blocks
  rw [← hlen, gather_loop_eq v po n_val hs hpo _ 0 (by omega), List.drop_zero]

/-- With a pixel order without repetition, the scatter loop stores each new bit at its
pixel and leaves the other positions alone. -/
theorem scatter_loop_spec (po : List Nat) (M0 nb : List Nat) (hnd : po.Nodup)
    (hlt : ∀ p ∈ po, p < M0.length) (hlen : po.length = nb.length) :
    ∃ M, scatter_loop M0 po nb = some M ∧ M.length = M0.length ∧
      (∀ q, q ∉ po → M[q]? = M0[q]?) ∧ po.map (fun p => M.getD p 0) = nb := by
  induction po generalizing M0 nb with
  | nil =>
    have : nb = [] := List.length_eq_zero.mp hlen.symm
    exact ⟨M0, by cases nb <;> rfl, rfl, fun _ _ => rfl, by simp [this]⟩
  | cons p po ih =>
    cases nb with
    | nil => simp at hlen
    | cons b nb =>
      have hp : p < M0.length := hlt p (by simp)
      obtain ⟨hpn, hnd'⟩ := List.nodup_cons.mp hnd
      obtain ⟨M, hM, hMl, hMq, hMm⟩ := ih (M0.set p b) nb hnd'
        (fun q hq => by rw [List.length_set]; exact hlt q (by simp [hq])) (by simpa using hlen)
      refine ⟨M, ?_, by rw [hMl, List.length_set], ?_, ?_⟩
      · rw [scatter_loop, if_pos hp, hM]
      · intro q hq
        simp only [List.mem_cons, not_or] at hq
        rw [hMq q hq.2, List.getElem?_set_ne (fun hc => hq.1 hc.symm)]
      · simp only [List.map_cons, hMm, List.cons.injEq, and_true]
        rw [List.getD_eq_getElem?_getD, hMq p hpn, List.getElem?_set_self hp]
        rfl

theorem resize_extend (v : List Nat) (k : Nat) (h : v.length ≤ k) :
    resize v k = v ++ List.replicate (k - v.length) 0 := by
  simp [resize, List.take_of_length_le h]

/-- Permuted round trip, for a pixel order that is a permutation of the bit indices. -/
theorem perm_encode_decode (r n : Nat) (carrier message pixel_order : List Nat)
    (hn : n + 1 = 2 ^ r) (hp : pixel_order.Perm (List.range carrier.length))
    (hK : (message.length + r - 1) / r ≤ n)
    (hcap : (message.length + r - 1) / r + 1 ≤ carrier.length / n)
    (hcb : is_bits carrier) (hmb : is_bits message) :
    ∃ modified_bits,
      encode_image_lsb_random carrier message n r pixel_order = .saved modified_bits ∧
      decode_image_lsb_random n modified_bits n r pixel_order =
        some (message ++ List.replicate ((r - message.length % r) % r) 0) := by
  have hn0 : 0 < n := by
    rcases Nat.eq_zero_or_pos n with h0 | h0
    · rw [h0, Nat.div_zero] at hcap
      exact absurd (Nat.le_zero.mp hcap) (Nat.succ_ne_zero _)
    · exact h0
  have hr : 0 < r := by
    rcases Nat.eq_zero_or_pos r with h0 | h0
    · rw [h0] at hn; simp at hn; omega
    · exact h0
  have hr' : r ≠ 0 := by omega
  have hplen : pixel_order.length = carrier.length := by
    rw [hp.length_eq, List.length_range]
  have hpo : ∀ p ∈ pixel_order, p < carrier.length := fun p hpm =>
    List.mem_range.mp (hp.mem_iff.mp hpm)
  have hnd : pixel_order.Nodup := hp.nodup_iff.mpr (List.nodup_range _)
  -- the message chunks
  have hchl : (split_loop message.length message r).length = (message.length + r - 1) / r :=
    split_loop_length r hr _ _ (Nat.le_refl _)
  have hch : ∀ m ∈ split_loop message.length message r, m.length = r ∧ is_bits m :=
    fun m hm => ⟨split_loop_block_length r _ _ m hm, split_loop_is_bits r _ _ hmb m hm⟩
  have hchf := split_loop_flatten_eq r hr message.length message (Nat.le_refl _)
  have hsplitm : split_blocks message r = some (split_loop message.length message r) := by
    simp only [split_blocks, if_neg hr']
  generalize split_loop message.length message r = chunks at hchl hch hchf hsplitm
  rw [← hchl] at hcap hK
  -- the gathered carrier blocks
  have hG : is_bits (pixel_order.map (fun p => carrier.getD p 0)) := by
    intro b hb
    obtain ⟨p, hpm, rfl⟩ := List.mem_map.mp hb
    have hlt := hpo p hpm
    rw [List.getD_eq_getElem?_getD, List.getElem?_eq_getElem hlt]
    exact hcb _ (List.getElem_mem hlt)
  have hgather := gather_blocks_eq carrier pixel_order n hn0 hplen hpo
  have hBl := full_blocks_block_length (pixel_order.map (fun p => carrier.getD p 0)) n
  have hBb := full_blocks_is_bits (pixel_order.map (fun p => carrier.getD p 0)) n hG
  have hBn := full_blocks_length (pixel_order.map (fun p => carrier.getD p 0)) n hn0
  rw [List.length_map, hplen] at hBn
  generalize full_blocks (pixel_order.map (fun p => carrier.getD p 0)) n = blocks_x
    at hgather hBl hBb hBn
  have hsplitx : blocks_x = blocks_x.take (chunks.length + 1) ++ blocks_x.drop (chunks.length + 1) :=
    (List.take_append_drop _ _).symm
  have hXlen : (blocks_x.take (chunks.length + 1)).length = chunks.length + 1 := by
    rw [List.length_take]; omega
  have hRlen : (blocks_x.drop (chunks.length + 1)).length =
      carrier.length / n - (chunks.length + 1) := by
    rw [List.length_drop, hBn]
  have hRl : ∀ b ∈ blocks_x.drop (chunks.length + 1), b.length = n :=
    fun b hb => hBl b (List.mem_of_mem_drop hb)
  obtain ⟨T, hT, hTlen, hTl, _, hdec⟩ := encode_blocks_ok r n carrier.length hn chunks
    (blocks_x.take (chunks.length + 1)) (blocks_x.drop (chunks.length + 1))
    (fun x hx => hBl x (List.mem_of_mem_take hx)) (fun x hx => hBb x (List.mem_of_mem_take hx))
    hch hXlen hK
  rw [← hsplitx] at hT
  generalize blocks_x.drop (chunks.length + 1) = R at hT hRlen hRl hdec
  -- the new bits: the embedded blocks, the other blocks, zeros
  have hTRl : ∀ b ∈ T ++ R, b.length = n := by
    intro b hb
    rcases List.mem_append.mp hb with hb | hb
    · exact hTl b hb
    · exact hRl b hb
  have hflen : (T ++ R).flatten.length = n * (carrier.length / n) := by
    rw [flatten_length_uniform n _ hTRl, List.length_append, hTlen, hXlen, hRlen]
    congr 1
    omega
  have hle : n * (carrier.length / n) ≤ carrier.length := Nat.mul_div_le _ _
  have hres : resize (T.flatten ++ R.flatten) carrier.length =
      (T ++ R).flatten ++ List.replicate (carrier.length - n * (carrier.length / n)) 0 := by
    rw [← List.flatten_append, resize_extend _ _ (by rw [hflen]; exact hle), hflen]
  have htail : carrier.length - n * (carrier.length / n) < n := by
    have := Nat.mod_lt carrier.length hn0
    have := Nat.div_add_mod carrier.length n
    omega
  rw [hres] at hT
  obtain ⟨M, hM, hMl, _, hMm⟩ := scatter_loop_spec pixel_order carrier
    ((T ++ R).flatten ++ List.replicate (carrier.length - n * (carrier.length / n)) 0)
    hnd hpo (by
      rw [List.length_append, hflen, List.length_replicate, hplen]; omega)
  refine ⟨M, ?_, ?_⟩
  · have hsc : scatter carrier pixel_order
        ((T ++ R).flatten ++ List.replicate (carrier.length - n * (carrier.length / n)) 0) =
        some M := by
      have htake : pixel_order.take carrier.length = pixel_order := by
        rw [← hplen, List.take_length]
      rw [scatter, if_pos (by omega), htake, hM]
    rw [encode_image_lsb_random, hgather, hsplitm]
    simp only [hT, hsc]
  · have hg := gather_blocks_eq M pixel_order n hn0 (by omega)
      (fun p hpm => by rw [hMl]; exact hpo p hpm)
    rw [decode_image_lsb_random, hg, hMm,
      full_blocks_flatten n hn0 (T ++ R) _ hTRl (by simpa using htail)]
    simp only [hdec R hRl, hchf]

/-! ## Capacity check -/

theorem encode_image_lsb_too_long_iff (carrier message : List Nat) (n r : Nat)
    (blocks_x blocks_m : List (List Nat)) (hx : split_blocks carrier n = some blocks_x)
    (hm : split_blocks message r = some blocks_m) :
    encode_image_lsb carrier message n r = .too_long ↔
      blocks_x.length < blocks_m.length + 1 := by
  rw [encode_image_lsb, hx, hm]
  simp only [encode_blocks, List.length_cons, gt_iff_lt]
  by_cases h : blocks_x.length < blocks_m.length + 1
  · simp [h]
  · simp only [if_neg h, h, iff_false]
    cases embed_blocks blocks_x (int_to_bits blocks_m.length r :: blocks_m) n <;> simp

theorem resize_length (v : List Nat) (k : Nat) : (resize v k).length = k := by
  simp only [resize, List.length_append, List.length_take, List.length_replicate]
  omega

theorem encode_image_lsb_saved (r n : Nat) (carrier message : List Nat)
    (blocks_x blocks_m : List (List Nat)) (hx : split_blocks carrier n = some blocks_x)
    (hm : split_blocks message r = some blocks_m) (hn : n + 1 = 2 ^ r)
    (hmb : is_bits message) (hcap : blocks_m.length + 1 ≤ blocks_x.length) :
    ∃ new_bits, encode_image_lsb carrier message n r = .saved new_bits ∧
      new_bits.length = carrier.length := by
  have hxl : ∀ x ∈ blocks_x, x.length = n := by
    unfold split_blocks at hx
    split at hx
    · split at hx
      · cases hx; intro x hxm; simp at hxm
      · cases hx
    · cases hx; exact split_loop_block_length n _ _
  have hml : ∀ m ∈ blocks_m, m.length = r ∧ is_bits m := by
    unfold split_blocks at hm
    split at hm
    · split at hm
      · cases hm; intro x hxm; simp at hxm
      · cases hm
    · cases hm
      exact fun m hmm =>
        ⟨split_loop_block_length r _ _ m hmm, split_loop_is_bits r _ _ hmb m hmm⟩
  have hms : ∀ m ∈ int_to_bits blocks_m.length r :: blocks_m, binvect_to_num m < 2 ^ r := by
    intro m hmm
    simp only [List.mem_cons] at hmm
    rcases hmm with rfl | hmm
    · rw [int_to_bits_eq, binvect_to_num_nat_bits]
      exact Nat.mod_lt _ (Nat.two_pow_pos r)
    · obtain ⟨hl, hb⟩ := hml m hmm
      have := binvect_to_num_lt m hb
      rwa [hl] at this
  obtain ⟨T, hT, _, _, _⟩ := embed_blocks_spec r n hn
    (int_to_bits blocks_m.length r :: blocks_m) (blocks_x.take (blocks_m.length + 1))
    (blocks_x.drop (blocks_m.length + 1)) (fun x hxm => hxl x (List.mem_of_mem_take hxm)) hms
    (by simp only [List.length_take, List.length_cons]; omega)
  rw [List.take_append_drop] at hT
  have hcap' : ¬ (int_to_bits blocks_m.length r :: blocks_m).length > blocks_x.length := by
    simp only [List.length_cons]; omega
  refine ⟨resize (T ++ blocks_x.drop (blocks_m.length + 1)).flatten carrier.length, ?_,
    resize_length _ carrier.length⟩
  rw [encode_image_lsb, hx, hm]
  simp only [encode_blocks, if_neg hcap', hT]

/-! ## The pixel order -/

theorem swap_at_count (v : List Nat) (i j b : Nat) :
    (swap_at v i j).count b = v.count b := by
  unfold swap_at
  by_cases hi : i < v.length
  · by_cases hj : j < v.length
    · simp only [List.getElem?_eq_getElem hi, List.getElem?_eq_getElem hj]
      have hj' : j < (v.set i v[j]).length := by rw [List.length_set]; exact hj
      rw [List.count_set _ _ _ _ hj', List.count_set _ _ _ _ hi]
      have hwj : (v.set i v[j])[j] = v[j] := by
        by_cases hij : i = j
        · subst hij; simp
        · simp [List.getElem_set_ne hij]
      rw [hwj]
      have h1 : (if (v[i] == b) = true then 1 else 0) ≤ v.count b := by
        split
        · rename_i h
          have : v[i] = b := by simpa using h
          exact List.count_pos_iff.mpr (this ▸ List.getElem_mem hi)
        · omega
      have h2 : (if (v[j] == b) = true then 1 else 0) ≤ v.count b := by
        split
        · rename_i h
          have : v[j] = b := by simpa using h
          exact List.count_pos_iff.mpr (this ▸ List.getElem_mem hj)
        · omega
      omega
    · simp [List.getElem?_eq_none (Nat.le_of_not_lt hj)]
  · simp [List.getElem?_eq_none (Nat.le_of_not_lt hi)]

theorem swap_at_perm (v : List Nat) (i j : Nat) : (swap_at v i j).Perm v :=
  List.perm_iff_count.mpr (fun b => swap_at_count v i j b)

theorem shuffle_perm (draw : Nat → Nat → Nat) (seed : Nat) (v : List Nat) :
    (shuffle draw seed v).Perm v := by
  unfold shuffle
  generalize List.range v.length = steps
  have key : ∀ acc : List Nat, acc.Perm v →
      (steps.foldl (fun acc i => swap_at acc i (draw seed i % (i + 1))) acc).Perm v := by
    induction steps with
    | nil => intro acc h; exact h
    | cons i steps ih =>
      intro acc h
      exact ih _ ((swap_at_perm acc i _).trans h)
  exact key v (List.Perm.refl v)

/-! ## LSB injection -/

set_option maxRecDepth 100000 in
theorem lsb_byte (d b : Nat) (hd : d < 256) (hb : b ≤ 1) :
    (((d &&& 4294967294) ||| b) % 256) >>> 1 = d >>> 1 ∧
      (((d &&& 4294967294) ||| b) % 256) &&& 1 = b := by
  have h : ∀ d < 256, ∀ b < 2, (((d &&& 4294967294) ||| b) % 256) >>> 1 = d >>> 1 ∧
      (((d &&& 4294967294) ||| b) % 256) &&& 1 = b := by decide
  exact h d hd b (by omega)

theorem zip_lsb (data bits : List Nat) (hlen : bits.length = data.length)
    (hd : ∀ d ∈ data, d < 256) (hb : is_bits bits) :
    (List.zipWith (fun d b => ((d &&& 4294967294) ||| b) % 256) data bits).map
        (fun d => d >>> 1) = data.map (fun d => d >>> 1) ∧
      (List.zipWith (fun d b => ((d &&& 4294967294) ||| b) % 256) data bits).map
        (fun d => d &&& 1) = bits := by
  induction data generalizing bits with
  | nil =>
    have : bits = [] := List.length_eq_zero.mp (by simpa using hlen)
    simp [this]
  | cons d data ih =>
    cases bits with
    | nil => simp at hlen
    | cons b bits =>
      obtain ⟨h1, h2⟩ := lsb_byte d b (hd d (by simp)) (hb b (by simp))
      obtain ⟨i1, i2⟩ := ih bits (by simpa using hlen) (fun x hx => hd x (by simp [hx]))
        (fun x hx => hb x (by simp [hx]))
      simp only [List.zipWith_cons_cons, List.map_cons, h1, h2, i1, i2, and_self]

/-! ## Positions of the set bits -/

theorem xor_positions_eq_xor_all (i : Nat) (x : List Nat) :
    xor_positions i x = xor_all (positions_from i x) := by
  induction x generalizing i with
  | nil => rfl
  | cons b x ih =>
    by_cases hb : b = 1
    · simp only [xor_positions, positions_from, if_pos hb, xor_all, List.foldr_cons]
      rw [ih (i + 1)]
      rfl
    · simp only [xor_positions, positions_from, if_neg hb, Nat.zero_xor]
      exact ih (i + 1)

theorem mem_positions_from (i p : Nat) (x : List Nat) :
    p ∈ positions_from i x ↔ i ≤ p ∧ x[p - i]? = some 1 := by
  induction x generalizing i with
  | nil => simp [positions_from]
  | cons b x ih =>
    have hstep : ∀ q, i + 1 ≤ q → (b :: x)[q - i]? = x[q - (i + 1)]? := by
      intro q hq
      have : q - i = (q - (i + 1)) + 1 := by omega
      rw [this, List.getElem?_cons_succ]
    by_cases hb : b = 1
    · simp only [positions_from, if_pos hb, List.mem_cons, ih (i + 1)]
      constructor
      · rintro (rfl | ⟨h1, h2⟩)
        · simp [hb]
        · exact ⟨by omega, by rw [hstep p h1]; exact h2⟩
      · rintro ⟨h1, h2⟩
        rcases Nat.eq_or_lt_of_le h1 with h | h
        · exact Or.inl h.symm
        · exact Or.inr ⟨h, by rw [← hstep p h]; exact h2⟩
    · simp only [positions_from, if_neg hb, ih (i + 1)]
      constructor
      · rintro ⟨h1, h2⟩
        exact ⟨by omega, by rw [hstep p h1]; exact h2⟩
      · rintro ⟨h1, h2⟩
        rcases Nat.eq_or_lt_of_le h1 with h | h
        · subst h
          simp at h2
          exact absurd h2 hb
        · exact ⟨h, by rw [← hstep p h]; exact h2⟩

theorem flip_at_getElem? (x : List Nat) (idx j : Nat) :
    (flip_at x idx)[j]? = if j = idx then (x[j]?).map (fun b => b ^^^ 1) else x[j]? := by
  induction x generalizing idx j with
  | nil => simp [flip_at]
  | cons a x ih =>
    cases idx with
    | zero =>
      cases j with
      | zero => simp [flip_at]
      | succ j => simp [flip_at]
    | succ idx =>
      cases j with
      | zero => simp [flip_at]
      | succ j => simp [flip_at, ih idx j]

theorem flip_at_hamming_eq (x : List Nat) (idx : Nat) (h : idx < x.length) :
    hamming x (flip_at x idx) = 1 := by
  induction x generalizing idx with
  | nil => simp at h
  | cons a x ih =>
    cases idx with
    | zero =>
      have hne : a ≠ a ^^^ 1 := by
        intro hc
        have h0 : a ^^^ (a ^^^ 1) = 0 := by rw [← hc, Nat.xor_self]
        rw [← Nat.xor_assoc, Nat.xor_self, Nat.zero_xor] at h0
        exact absurd h0 (by decide)
      simp only [flip_at, hamming, if_neg hne, hamming_self]
    | succ j =>
      simp only [flip_at, hamming, if_true]
      rw [ih j (by simpa using h)]

/-! ## Bit packing -/

theorem binvect_foldl_init (v : List Nat) (hv : is_bits v) (init : Nat) :
    v.foldl (fun num b => (num <<< 1) ||| b) init =
      init * 2 ^ v.length + binvect_to_num v := by
  induction v generalizing init with
  | nil => simp [binvect_to_num]
  | cons b v ih =>
    have hb : b ≤ 1 := hv b (by simp)
    have hv' : is_bits v := fun c hc => hv c (by simp [hc])
    have h0 : binvect_to_num (b :: v) = b * 2 ^ v.length + binvect_to_num v := by
      have := ih hv' ((0 <<< 1) ||| b)
      simp only [binvect_to_num, List.foldl_cons] at this ⊢
      rw [this]
      simp
    rw [List.foldl_cons, ih hv', h0, shift_or_bit _ _ hb, List.length_cons, Nat.pow_succ]
    ring

theorem binvect_to_num_cons (b : Nat) (v : List Nat) (hv : is_bits (b :: v)) :
    binvect_to_num (b :: v) = b * 2 ^ v.length + binvect_to_num v := by
  have hb : b ≤ 1 := hv b (by simp)
  have hv' : is_bits v := fun c hc => hv c (by simp [hc])
  have := binvect_foldl_init v hv' ((0 <<< 1) ||| b)
  simp only [binvect_to_num, List.foldl_cons] at this ⊢
  rw [this]
  simp

theorem binvect_to_num_zeros (k : Nat) : binvect_to_num (List.replicate k 0) = 0 := by
  induction k with
  | zero => rfl
  | succ k ih =>
    rw [List.replicate_succ, binvect_to_num_cons 0 _ (by
      intro c hc
      rcases List.mem_cons.mp hc with rfl | hc
      · omega
      · rw [(List.mem_replicate.mp hc).2]; omega), ih]
    simp

theorem is_bits_resize_block (v : List Nat) (k : Nat) (hv : is_bits v) :
    is_bits (resize_block v k) := by
  intro c hc
  simp only [resize_block, List.mem_append, List.mem_replicate] at hc
  rcases hc with hc | ⟨_, rfl⟩
  · exact hv c hc
  · omega

/-- The inner packing loop computes the big-endian value of the next `k` bits, zeros
standing in for missing bits, as long as the value fits the byte. -/
theorem pack_byte_eq (k : Nat) (bits : List Nat) (byte : Nat) (hb : is_bits bits)
    (hk : k ≤ 8) (hbyte : byte < 2 ^ (8 - k)) :
    pack_byte k bits byte =
      byte * 2 ^ k + binvect_to_num (resize_block (bits.take k) k) := by
  induction k generalizing bits byte with
  | zero => simp [pack_byte, resize_block, binvect_to_num]
  | succ k ih =>
    have hpow : 2 ^ (8 - k) = 2 * 2 ^ (8 - (k + 1)) := by
      have : 8 - k = (8 - (k + 1)) + 1 := by omega
      rw [this, Nat.pow_succ, Nat.mul_comm]
    have h256 : 2 ^ (8 - k) ≤ 256 := by
      have : 2 ^ (8 - k) ≤ 2 ^ 8 := Nat.pow_le_pow_right (by decide) (by omega)
      simpa using this
    cases bits with
    | nil =>
      have hlt : byte <<< 1 < 256 := by rw [Nat.shiftLeft_eq]; omega
      rw [pack_byte, Nat.mod_eq_of_lt hlt, ih [] _ (by intro c hc; simp at hc) (by omega)
        (by rw [Nat.shiftLeft_eq]; omega)]
      simp only [List.take_nil, resize_block, List.nil_append, List.length_nil, Nat.sub_zero,
        binvect_to_num_zeros, Nat.shiftLeft_eq, Nat.pow_succ]
      ring
    | cons b rest =>
      have hb1 : b ≤ 1 := hb b (by simp)
      have hrest : is_bits rest := fun c hc => hb c (by simp [hc])
      have hval : (byte <<< 1) ||| b = 2 * byte + b := shift_or_bit byte b hb1
      have hlt : 2 * byte + b < 256 := by omega
      have hres : resize_block ((b :: rest).take (k + 1)) (k + 1) =
          b :: resize_block (rest.take k) k := by
        simp [resize_block]
      have hlen : (resize_block (rest.take k) k).length = k :=
        resize_block_length _ _ (by simp [List.length_take])
      rw [pack_byte, hval, Nat.mod_eq_of_lt hlt, ih rest _ hrest (by omega) (by omega), hres,
        binvect_to_num_cons b _ (by
          intro c hc
          rcases List.mem_cons.mp hc with rfl | hc
          · exact hb1
          · exact is_bits_resize_block _ _ (fun d hd => hrest d (List.mem_of_mem_take hd)) c hc),
        hlen, Nat.pow_succ]
      ring

theorem pack_loop_eq (fuel : Nat) (bits : List Nat) (hb : is_bits bits) :
    pack_loop fuel bits = (split_loop fuel bits 8).map binvect_to_num := by
  induction fuel generalizing bits with
  | zero => rfl
  | succ fuel ih =>
    by_cases hne : bits = []
    · simp [pack_loop, split_loop, hne]
    · simp only [pack_loop, split_loop, if_neg hne, List.map_cons]
      rw [ih _ (fun c hc => hb c (List.mem_of_mem_drop hc)),
        pack_byte_eq 8 bits 0 hb (Nat.le_refl _) (by decide)]
      simp

theorem unpack_byte_eq (byte : Nat) : unpack_byte byte = nat_bits 8 byte := by
  simp only [unpack_byte, nat_bits, List.map_cons, List.map_nil, Nat.shiftRight_eq_div_pow,
    Nat.and_one_is_mod, Nat.div_div_eq_div_mul, List.nil_append, List.cons_append,
    List.singleton_append]
  norm_num

/-! ## What the encoders change -/

/-- Without any assumption on the block length: when the embedding loops return, each
chunk's block is replaced by a block of the same length at Hamming distance at most 1,
and the blocks after the chunks are unchanged. -/
theorem embed_blocks_frame (n_val : Nat) (blocks_m blocks_x enc : List (List Nat))
    (hx : ∀ x ∈ blocks_x, x.length = n_val)
    (h : embed_blocks blocks_x blocks_m n_val = some enc) :
    blocks_m.length ≤ blocks_x.length ∧ enc.length = blocks_x.length ∧
      (∀ e ∈ enc, e.length = n_val) ∧
      (∀ j, j < blocks_m.length → hamming (blocks_x.getD j []) (enc.getD j []) ≤ 1) ∧
      enc.drop blocks_m.length = blocks_x.drop blocks_m.length := by
  induction blocks_m generalizing blocks_x enc with
  | nil =>
    have henc : enc = blocks_x := by
      cases blocks_x <;> simp [embed_blocks] at h <;> first | exact h | exact h.symm
    subst henc
    exact ⟨Nat.zero_le _, rfl, hx, fun j hj => absurd hj (Nat.not_lt_zero _), rfl⟩
  | cons m blocks_m ih =>
    cases blocks_x with
    | nil => simp [embed_blocks] at h
    | cons x blocks_x =>
      rw [embed_blocks] at h
      cases hy : task1 x m n_val with
      | none => simp [hy] at h
      | some y =>
        cases hrest : embed_blocks blocks_x blocks_m n_val with
        | none => simp [hy, hrest] at h
        | some rest =>
          simp only [hy, hrest, Option.some.injEq] at h
          subst h
          have hxl : x.length = n_val := hx x (by simp)
          rw [← hxl] at hy
          obtain ⟨h1, h2, h3, h4, h5⟩ := ih blocks_x rest
            (fun z hz => hx z (by simp [hz])) hrest
          refine ⟨by simpa using h1, by simp [h2], ?_, ?_, ?_⟩
          · intro e he
            rcases List.mem_cons.mp he with rfl | he
            · rw [task1_length x m e hy, hxl]
            · exact h3 e he
          · intro j hj
            cases j with
            | zero => simpa using task1_hamming x m y hy
            | succ j => simpa using h4 j (by simpa using hj)
          · simpa using h5

theorem flatten_drop_uniform (size : Nat) (L : List (List Nat))
    (h : ∀ b ∈ L, b.length = size) (j : Nat) :
    L.flatten.drop (size * j) = (L.drop j).flatten := by
  induction j generalizing L with
  | zero => simp
  | succ j ih =>
    cases L with
    | nil => simp
    | cons b L =>
      have hb : b.length = size := h b (by simp)
      rw [Nat.mul_succ, Nat.add_comm, ← List.drop_drop, List.flatten_cons,
        List.drop_left' hb, ih L (fun c hc => h c (by simp [hc]))]
      rfl

theorem window_flatten (size : Nat) (L : List (List Nat))
    (h : ∀ b ∈ L, b.length = size) (j : Nat) :
    window L.flatten size j = L.getD j [] := by
  unfold window
  rw [flatten_drop_uniform size L h j]
  by_cases hj : j < L.length
  · rw [List.drop_eq_getElem_cons hj, List.flatten_cons,
      List.take_left' (h _ (List.getElem_mem hj))]
    simp [List.getD_eq_getElem?_getD, List.getElem?_eq_getElem hj]
  · rw [List.drop_of_length_le (by omega)]
    simp [List.getD_eq_getElem?_getD, List.getElem?_eq_none (Nat.le_of_not_lt hj)]

theorem window_take (bits : List Nat) (size j len : Nat) :
    window (bits.take len) size j = (window bits size j).take (len - size * j) := by
  unfold window
  rw [List.drop_take, List.take_take, List.take_take, Nat.min_comm]

theorem hamming_take (a b : List Nat) (t : Nat) :
    hamming (a.take t) (b.take t) ≤ hamming a b := by
  induction a generalizing b t with
  | nil => simp [hamming]
  | cons x a ih =>
    cases b with
    | nil => simp [hamming]
    | cons y b =>
      cases t with
      | zero => simp [hamming]
      | succ t =>
        simp only [List.take_succ_cons, hamming]
        have := ih b t
        omega

theorem resize_truncate (v : List Nat) (k : Nat) (h : k ≤ v.length) :
    resize v k = v.take k := by
  simp [resize, Nat.sub_eq_zero_of_le h]

theorem encode_blocks_some (blocks_x blocks_m : List (List Nat)) (n_val r_val total : Nat)
    (new_bits : List Nat)
    (h : encode_blocks blocks_x blocks_m n_val r_val total = some (some new_bits)) :
    blocks_m.length + 1 ≤ blocks_x.length ∧
      ∃ enc, embed_blocks blocks_x (int_to_bits blocks_m.length r_val :: blocks_m) n_val =
          some enc ∧ new_bits = resize enc.flatten total := by
  simp only [encode_blocks, List.length_cons, gt_iff_lt] at h
  by_cases hcap : blocks_x.length < blocks_m.length + 1
  · simp [hcap] at h
  · rw [if_neg hcap] at h
    cases he : embed_blocks blocks_x (int_to_bits blocks_m.length r_val :: blocks_m) n_val with
    | none => simp [he] at h
    | some enc =>
      simp only [he, Option.some.injEq] at h
      exact ⟨by omega, enc, rfl, h.symm⟩

/-- The sequential encoder, when it saves: the new bits are the embedded blocks laid end
to end and cut to the carrier length. -/
theorem encode_image_lsb_saved_frame (carrier message : List Nat) (n r : Nat)
    (new_bits : List Nat) (blocks_m : List (List Nat))
    (hm : split_blocks message r = some blocks_m)
    (h : encode_image_lsb carrier message n r = .saved new_bits) :
    new_bits.length = carrier.length ∧
      (∀ j, j < blocks_m.length + 1 →
        hamming (window carrier n j) (window new_bits n j) ≤ 1) ∧
      new_bits.drop (n * (blocks_m.length + 1)) = carrier.drop (n * (blocks_m.length + 1)) := by
  rw [encode_image_lsb, hm] at h
  cases hx : split_blocks carrier n with
  | none => simp [hx] at h
  | some blocks_x =>
    simp only [hx] at h
    have hn0 : 0 < n := by
      rcases Nat.eq_zero_or_pos n with h0 | h0
      · subst h0
        simp only [split_blocks, if_true] at hx
        split at hx
        · cases hx
          simp [encode_blocks] at h
        · cases hx
      · exact h0
    simp only [split_blocks, if_neg (Nat.pos_iff_ne_zero.mp hn0), Option.some.injEq] at hx
    have hxl : ∀ x ∈ blocks_x, x.length = n := by
      rw [← hx]; exact split_loop_block_length n _ _
    have hxf : blocks_x.flatten =
        carrier ++ List.replicate ((n - carrier.length % n) % n) 0 := by
      rw [← hx]; exact split_loop_flatten_eq n hn0 _ _ (Nat.le_refl _)
    cases hb : encode_blocks blocks_x blocks_m n r carrier.length with
    | none => simp [hb] at h
    | some o =>
      cases o with
      | none => simp [hb] at h
      | some nb =>
        simp only [hb, EncodeResult.saved.injEq] at h
        subst h
        obtain ⟨_, enc, he, h⟩ := encode_blocks_some _ _ _ _ _ _ hb
        obtain ⟨_, h2, h3, h4, h5⟩ := embed_blocks_frame n _ blocks_x enc hxl he
        simp only [List.length_cons] at h4 h5
        have hlenE : enc.flatten.length = blocks_x.flatten.length := by
          rw [flatten_length_uniform n enc h3, flatten_length_uniform n blocks_x hxl, h2]
        have hle : carrier.length ≤ enc.flatten.length := by
          rw [hlenE, hxf, List.length_append]; omega
        have hcar : carrier = blocks_x.flatten.take carrier.length := by
          rw [hxf, List.take_left']; rfl
        rw [resize_truncate _ _ hle] at h
        subst h
        refine ⟨by rw [List.length_take]; omega, ?_, ?_⟩
        · intro j hj
          have hw : window carrier n j =
              (window blocks_x.flatten n j).take (carrier.length - n * j) := by
            conv_lhs => rw [hcar]
            exact window_take _ _ _ _
          rw [hw, window_take, window_flatten n enc h3, window_flatten n blocks_x hxl]
          exact Nat.le_trans (hamming_take _ _ _) (h4 j hj)
        · conv_rhs => rw [hcar]
          rw [List.drop_take, List.drop_take, flatten_drop_uniform n enc h3,
            flatten_drop_uniform n blocks_x hxl, h5]

/-! ## What the permuted encoder writes -/

theorem range_map_getD (l : List Nat) :
    (List.range l.length).map (fun p => l.getD p 0) = l := by
  apply List.ext_getElem
  · simp
  · intro i h1 h2
    simp [List.getD_eq_getElem?_getD, List.getElem?_eq_getElem h2]

theorem scatter_eq (carrier po nb : List Nat) (hp : po.Perm (List.range carrier.length))
    (hlen : nb.length = carrier.length) :
    ∃ M, scatter carrier po nb = some M ∧ M.length = carrier.length ∧
      po.map (fun p => M.getD p 0) = nb := by
  have hplen : po.length = carrier.length := by rw [hp.length_eq, List.length_range]
  have hpo : ∀ p ∈ po, p < carrier.length := fun p hpm =>
    List.mem_range.mp (hp.mem_iff.mp hpm)
  have hnd : po.Nodup := hp.nodup_iff.mpr (List.nodup_range _)
  obtain ⟨M, hM, hMl, _, hMm⟩ := scatter_loop_spec po carrier nb hnd hpo (by omega)
  have htake : po.take carrier.length = po := by rw [← hplen, List.take_length]
  exact ⟨M, by rw [scatter, if_pos (by omega), htake, hM], hMl, hMm⟩

/-- The permuted encoder, when it saves: read in the pixel order, the saved bits are
`n * floor(N / n)` bits of blocks followed by zeros for the `N mod n` last pixels. -/
theorem encode_image_lsb_random_saved_tail (carrier message po : List Nat) (n r : Nat)
    (out : List Nat) (hn : 0 < n) (hp : po.Perm (List.range carrier.length))
    (h : encode_image_lsb_random carrier message n r po = .saved out) :
    out.length = carrier.length ∧
      ∃ body, body.length = n * (carrier.length / n) ∧
        po.map (fun p => out.getD p 0) =
          body ++ List.replicate (carrier.length - n * (carrier.length / n)) 0 := by
  have hplen : po.length = carrier.length := by rw [hp.length_eq, List.length_range]
  have hpo : ∀ p ∈ po, p < carrier.length := fun p hpm =>
    List.mem_range.mp (hp.mem_iff.mp hpm)
  have hgather := gather_blocks_eq carrier po n hn hplen hpo
  have hBl := full_blocks_block_length (po.map (fun p => carrier.getD p 0)) n
  have hBn := full_blocks_length (po.map (fun p => carrier.getD p 0)) n hn
  rw [List.length_map, hplen] at hBn
  generalize full_blocks (po.map (fun p => carrier.getD p 0)) n = blocks_x
    at hgather hBl hBn
  rw [encode_image_lsb_random, hgather] at h
  cases hm : split_blocks message r with
  | none => simp [hm] at h
  | some blocks_m =>
    simp only [hm] at h
    cases hb : encode_blocks blocks_x blocks_m n r carrier.length with
    | none => simp [hb] at h
    | some o =>
      cases o with
      | none => simp [hb] at h
      | some nb =>
        obtain ⟨_, enc, he, hnb⟩ := encode_blocks_some _ _ _ _ _ _ hb
        obtain ⟨_, h2, h3, _, _⟩ := embed_blocks_frame n _ blocks_x enc hBl he
        have hflen : enc.flatten.length = n * (carrier.length / n) := by
          rw [flatten_length_uniform n enc h3, h2, hBn]
        have hle : n * (carrier.length / n) ≤ carrier.length := Nat.mul_div_le _ _
        rw [resize_extend _ _ (by rw [hflen]; exact hle), hflen] at hnb
        obtain ⟨M, hM, hMl, hMm⟩ := scatter_eq carrier po nb hp (by
          rw [hnb, List.length_append, hflen, List.length_replicate]; omega)
        simp only [hb, hM, EncodeResult.saved.injEq] at h
        subst h
        exact ⟨hMl, enc.flatten, hflen, by rw [hMm, hnb]⟩

theorem hamming_ones (M : List Nat) :
    hamming (List.replicate M.length 1) M + M.count 1 = M.length := by
  induction M with
  | nil => rfl
  | cons a M ih =>
    by_cases ha : a = 1
    · subst ha
      simp only [List.length_cons, List.replicate_succ, hamming, if_true, List.count_cons_self]
      omega
    · have ha' : ¬ (1 = a) := fun hc => ha hc.symm
      have hc : (a :: M).count 1 = M.count 1 := by
        simp [List.count_cons, ha]
      simp only [List.length_cons, List.replicate_succ, hamming, if_neg ha', hc]
      omega

/-- The saved bits hold at most `n * floor(N / n)` ones, whatever the carrier holds. -/
theorem encode_image_lsb_random_saved_ones (carrier message po : List Nat) (n r : Nat)
    (out : List Nat) (hn : 0 < n) (hp : po.Perm (List.range carrier.length))
    (h : encode_image_lsb_random carrier message n r po = .saved out) :
    out.count 1 ≤ n * (carrier.length / n) := by
  obtain ⟨hlen, body, hbl, hmap⟩ :=
    encode_image_lsb_random_saved_tail carrier message po n r out hn hp h
  have hperm : (po.map (fun p => out.getD p 0)).Perm out := by
    have := hp.map (fun p => out.getD p 0)
    rw [← hlen, range_map_getD] at this
    exact this
  rw [← hperm.count_eq, hmap, List.count_append]
  have h0 : (List.replicate (carrier.length - n * (carrier.length / n)) 0).count 1 = 0 := by
    rw [List.count_replicate]
    simp
  rw [h0, Nat.add_zero, ← hbl]
  exact List.count_le_length 1 body

/-- When the carrier is made of whole blocks, the permuted encoder with the identity
pixel order is the sequential encoder. -/
theorem encode_identity_order (carrier message : List Nat) (n r : Nat) (hn : 0 < n)
    (hdiv : carrier.length % n = 0) :
    encode_image_lsb_random carrier message n r (List.range carrier.length) =
      encode_image_lsb carrier message n r := by
  have hfull : n * (carrier.length / n) = carrier.length :=
    Nat.mul_div_cancel' (Nat.dvd_of_mod_eq_zero hdiv)
  have hgather : gather_blocks carrier (List.range carrier.length) n =
      some (split_loop carrier.length carrier n) := by
    rw [gather_blocks_eq carrier _ n hn (List.length_range _)
      (fun p hp => List.mem_range.mp hp), range_map_getD]
    unfold full_blocks
    rw [hfull, List.take_length]
  have hsplit : split_blocks carrier n = some (split_loop carrier.length carrier n) := by
    simp only [split_blocks, if_neg (Nat.pos_iff_ne_zero.mp hn)]
  rw [encode_image_lsb_random, encode_image_lsb, hgather, hsplit]
  cases hm : split_blocks message r with
  | none => rfl
  | some blocks_m =>
    simp only []
    cases hb : encode_blocks (split_loop carrier.length carrier n) blocks_m n r
        carrier.length with
    | none => rfl
    | some o =>
      cases o with
      | none => rfl
      | some nb =>
        obtain ⟨_, enc, _, hnb⟩ := encode_blocks_some _ _ _ _ _ _ hb
        have hlen : nb.length = carrier.length := by rw [hnb, resize_length]
        obtain ⟨M, hM, hMl, hMm⟩ := scatter_eq carrier (List.range carrier.length) nb
          (List.Perm.refl _) hlen
        have hMnb : M = nb := by
          rw [← hMl, range_map_getD] at hMm
          exact hMm
        simp only [hM, hMnb]

theorem decode_identity_order (g : Nat) (carrier : List Nat) (n r : Nat) (hn : 0 < n)
    (hdiv : carrier.length % n = 0) :
    decode_image_lsb_random g carrier n r (List.range carrier.length) =
      decode_image_lsb g carrier n r := by
  have hfull : n * (carrier.length / n) = carrier.length :=
    Nat.mul_div_cancel' (Nat.dvd_of_mod_eq_zero hdiv)
  have hgather : gather_blocks carrier (List.range carrier.length) n =
      some (split_loop carrier.length carrier n) := by
    rw [gather_blocks_eq carrier _ n hn (List.length_range _)
      (fun p hp => List.mem_range.mp hp), range_map_getD]
    unfold full_blocks
    rw [hfull, List.take_length]
  have hsplit : split_blocks carrier n = some (split_loop carrier.length carrier n) := by
    simp only [split_blocks, if_neg (Nat.pos_iff_ne_zero.mp hn)]
  rw [decode_image_lsb_random, decode_image_lsb, hgather, hsplit]

/-! ## The block codec: claims C1 to C3 -/

/-- C1: in the program's configuration `n = 7`, `r = 3`, for every container block `x`
of 7 bits and every message `m` of 3 bits, `task1(x, m, 7)` returns a block `x_` and
`encode(x_, 3)` returns `m`; this is the comparison `m == m_` of `main`. -/
theorem embed_extract_7_3 (x m : List Nat) (hx : x.length = 7) (hxb : is_bits x)
    (hm : m.length = 3) (hmb : is_bits m) :
    ∃ x_, task1 x m 7 = some x_ ∧ encode 7 x_ 3 = some m := by
  have hlt : binvect_to_num m < 2 ^ 3 := by
    have := binvect_to_num_lt m hmb
    rwa [hm] at this
  obtain ⟨y, hy⟩ := task1_defined 3 x m (by rw [hx]; rfl) hlt
  have hlen := task1_length x m y hy
  have he := encode_eq y 3
  have hnb := nat_bits_binvect_to_num m hmb
  rw [hm] at hnb
  rw [hlen, task1_xor_positions x m y hxb hy, hnb] at he
  rw [hx] at hy he
  exact ⟨y, hy, he⟩

/-- Witness of C1 at the container `[0,0,0,0,0,0,0]` and the message `[1,0,1]`. -/
theorem embed_extract_7_3_witness :
    ∃ x_, task1 [0, 0, 0, 0, 0, 0, 0] [1, 0, 1] 7 = some x_ ∧ encode 7 x_ 3 = some [1, 0, 1] :=
  embed_extract_7_3 [0, 0, 0, 0, 0, 0, 0] [1, 0, 1] rfl (by decide) rfl (by decide)

/-- C2, as stated, fails for a block length that is not of the form `2 ^ r - 1`: with
`n = 5`, the block `[0,0,1,0,0]` (syndrome 3) and the chunk `[1,0,1]` (value 5, inside
`[0, 5]`), `task1` has to write `e[5]`, outside its 5-element vector, and returns no block
of syndrome 5; the block itself keeps syndrome 3. -/
theorem task1_syndrom_fails_at_5 :
    ([0, 0, 1, 0, 0] : List Nat).length = 5 ∧ is_bits [0, 0, 1, 0, 0] ∧
      binvect_to_num [1, 0, 1] ≤ 5 ∧
      task1 [0, 0, 1, 0, 0] [1, 0, 1] 5 = none ∧
      syndrom [0, 0, 1, 0, 0] 5 = some 3 ∧
      ¬ ∃ y, task1 [0, 0, 1, 0, 0] [1, 0, 1] 5 = some y ∧
        syndrom y 5 = some (binvect_to_num [1, 0, 1]) := by
  refine ⟨rfl, by decide, by decide, by decide, by decide, ?_⟩
  rintro ⟨y, hy, _⟩
  have : task1 [0, 0, 1, 0, 0] [1, 0, 1] 5 = none := by decide
  rw [this] at hy
  cases hy

/-- C2, amended: when the block length is `n = 2 ^ r - 1`, for every block of `n` bits
and every chunk whose big-endian value lies in `[0, n]`, `task1` returns a block and the
syndrome of that block equals `binvect_to_num(chunk)`. -/
theorem task1_syndrom_self_consistent (r n : Nat) (block chunk : List Nat)
    (hn : n + 1 = 2 ^ r) (hlen : block.length = n) (hb : is_bits block)
    (hval : binvect_to_num chunk ≤ n) :
    ∃ y, task1 block chunk n = some y ∧ syndrom y n = some (binvect_to_num chunk) := by
  subst hlen
  obtain ⟨y, hy⟩ := task1_defined r block chunk hn (by omega)
  exact ⟨y, hy, task1_syndrom block chunk y hb hy⟩

/-- Witness of the amended C2 at `n = 7`, block `[1,0,0,1,0,1,1]`, chunk `[1,1,0]`. -/
theorem task1_syndrom_self_consistent_witness :
    ∃ y, task1 [1, 0, 0, 1, 0, 1, 1] [1, 1, 0] 7 = some y ∧
      syndrom y 7 = some (binvect_to_num [1, 1, 0]) :=
  task1_syndrom_self_consistent 3 7 [1, 0, 0, 1, 0, 1, 1] [1, 1, 0] (by decide) rfl
    (by decide) (by decide)

/-- C3: for every block `x` of `n` elements and every chunk `m`, a block returned by
`task1(x, m, n)` has the length of `x` and differs from `x` in at most one position;
and `task1` does return a block whenever `n = 2 ^ r - 1` and `m` is a chunk of `r`
bits (the written index is then inside the block). -/
theorem task1_bounded_distortion (r n : Nat) (x m : List Nat) (hx : x.length = n) :
    (∀ y, task1 x m n = some y → y.length = x.length ∧ hamming x y ≤ 1) ∧
      (n + 1 = 2 ^ r → m.length = r → is_bits m →
        ∃ y, task1 x m n = some y ∧ y.length = x.length ∧ hamming x y ≤ 1) := by
  subst hx
  have h1 : ∀ y, task1 x m x.length = some y → y.length = x.length ∧ hamming x y ≤ 1 :=
    fun y hy => ⟨task1_length x m y hy, task1_hamming x m y hy⟩
  refine ⟨h1, fun hn hm hmb => ?_⟩
  have hlt : binvect_to_num m < 2 ^ r := by
    have := binvect_to_num_lt m hmb
    rwa [hm] at this
  obtain ⟨y, hy⟩ := task1_defined r x m hn hlt
  exact ⟨y, hy, h1 y hy⟩

/-- Witness of C3 at `n = 7`, `r = 3`, block `[1,1,0,1,0,0,1]`, chunk `[0,1,1]`. -/
theorem task1_bounded_distortion_witness :
    ∃ y, task1 [1, 1, 0, 1, 0, 0, 1] [0, 1, 1] 7 = some y ∧
      y.length = 7 ∧ hamming [1, 1, 0, 1, 0, 0, 1] y ≤ 1 :=
  (task1_bounded_distortion 3 7 [1, 1, 0, 1, 0, 0, 1] [0, 1, 1] rfl).2
    (by decide) rfl (by decide)

/-! ## The sequential round trip: claim C4 -/

set_option maxRecDepth 100000 in
/-- C4, as stated, fails in two ways. First, once the chunk count reaches `2 ^ r`: in the
program's configuration `n = 7`, `r = 3`, with `k = 8`, a carrier of `63 = 7 * 9` zero
bits and a message of `24 = 8 * 3` one bits, the header holds `8 mod 8 = 0`, the encoder
saves the image, and the decoder returns the empty sequence instead of the message.
Second, when the block length passed differs from the module-level `n = 7` that `encode`
reads: with `n_val = 15`, `r = 4`, `k = 1`, a carrier of 30 zero bits and the message
`[1,0,0,0]`, the decoder returns `[0,0,0,0]`. -/
theorem sequential_round_trip_fails_at_8_chunks :
    (7 + 1 = 2 ^ 3 ∧ 7 * (8 + 1) ≤ (List.replicate 63 0).length ∧
      (List.replicate 24 1).length ≤ 8 * 3 ∧
      is_bits (List.replicate 63 0) ∧ is_bits (List.replicate 24 1) ∧
      ∃ new_bits, encode_image_lsb (List.replicate 63 0) (List.replicate 24 1) 7 3 =
          .saved new_bits ∧
        decode_image_lsb 7 new_bits 7 3 = some [] ∧
        decode_image_lsb 7 new_bits 7 3 ≠
          some (List.replicate 24 1 ++ List.replicate ((3 - 24 % 3) % 3) 0)) ∧
    (15 + 1 = 2 ^ 4 ∧ 15 * (1 + 1) ≤ (List.replicate 30 0).length ∧
      ([1, 0, 0, 0] : List Nat).length ≤ 1 * 4 ∧
      ∃ new_bits, encode_image_lsb (List.replicate 30 0) [1, 0, 0, 0] 15 4 = .saved new_bits ∧
        decode_image_lsb 7 new_bits 15 4 = some [0, 0, 0, 0] ∧
        decode_image_lsb 7 new_bits 15 4 ≠
          some ([1, 0, 0, 0] ++ List.replicate ((4 - 4 % 4) % 4) 0)) := by
  refine ⟨⟨by decide, by decide, by decide, by decide, by decide, ?_⟩,
    ⟨by decide, by decide, by decide, ?_⟩⟩
  · exact ⟨[0, 0, 0, 0, 0, 0, 0, 0, 0, 0, 0, 0, 0, 1, 0, 0, 0, 0, 0, 0, 1, 0, 0, 0, 0, 0, 0,
      1, 0, 0, 0, 0, 0, 0, 1, 0, 0, 0, 0, 0, 0, 1, 0, 0, 0, 0, 0, 0, 1, 0, 0, 0, 0, 0, 0, 1,
      0, 0, 0, 0, 0, 0, 1], by decide, by decide, by decide⟩
  · exact ⟨[1, 0, 0, 0, 0, 0, 0, 0, 0, 0, 0, 0, 0, 0, 0, 0, 0, 0, 0, 0, 0, 0, 1, 0, 0, 0, 0,
      0, 0, 0], by decide, by decide, by decide⟩

/-- C4, amended: with `r ≥ 1`, `n = 2 ^ r - 1` and the module-level `n` that `encode`
reads equal to that `n` (as in `main`, where both are 7), for every `k`, every carrier
bit sequence of length `≥ n * (k + 1)` and every message bit sequence of length `≤ k * r`
whose chunk count `ceil(length / r)` is at most `n` (what the `r`-bit header can hold),
the sequential encoder saves an image and the sequential decoder applied to its bits
returns the message zero-padded to a multiple of `r`. -/
theorem sequential_round_trip (g r n k : Nat) (carrier message : List Nat)
    (hg : g = n) (hr : 0 < r) (hn : n + 1 = 2 ^ r)
    (hc : n * (k + 1) ≤ carrier.length) (hm : message.length ≤ k * r)
    (hcount : (message.length + r - 1) / r ≤ n)
    (hcb : is_bits carrier) (hmb : is_bits message) :
    ∃ new_bits, encode_image_lsb carrier message n r = .saved new_bits ∧
      decode_image_lsb g new_bits n r =
        some (message ++ List.replicate ((r - message.length % r) % r) 0) := by
  subst hg
  have hk := chunk_count_le r k message.length hr hm
  have hle : g * ((message.length + r - 1) / r + 1) ≤ g * (k + 1) :=
    Nat.mul_le_mul_left g (by omega)
  exact seq_encode_decode r g carrier message hr hn (by omega) hcount hcb hmb

/-- Witness of the amended C4 in the program's configuration, module-level `n = 7`,
`n = 7`, `r = 3`, with `k = 2`, a carrier of 21 bits and the message `[1,0,1,1]`. -/
theorem sequential_round_trip_witness :
    ∃ new_bits,
      encode_image_lsb [1, 0, 0, 1, 1, 0, 1, 0, 0, 0, 1, 0, 1, 1, 1, 1, 0, 0, 1, 0, 1]
        [1, 0, 1, 1] 7 3 = .saved new_bits ∧
      decode_image_lsb 7 new_bits 7 3 = some ([1, 0, 1, 1] ++ List.replicate ((3 - 4 % 3) % 3) 0) :=
  sequential_round_trip 7 3 7 2 [1, 0, 0, 1, 1, 0, 1, 0, 0, 0, 1, 0, 1, 1, 1, 1, 0, 0, 1, 0, 1]
    [1, 0, 1, 1] rfl (by decide) (by decide) (by decide) (by decide) (by decide) (by decide)
    (by decide)

/-! ## The permuted round trip: claim C5 -/

/-- Permuted round trip when the module-level `n` that `encode` reads is the block length
passed (the first argument of the decoder is that `n`): with `n = 2 ^ r - 1`, for every
carrier of `N` bits, every pixel order that is a permutation of `0 .. N - 1` and is used
by both sides, and every message of bits whose chunk count `k` satisfies `k ≤ n` and
`k + 1 ≤ floor(N / n)`, the permuted encoder saves an image and the permuted decoder
applied to its bits returns the message zero-padded to a multiple of `r`. -/
theorem permuted_round_trip (r n : Nat) (carrier message pixel_order : List Nat)
    (chunks : List (List Nat)) (hn : n + 1 = 2 ^ r)
    (hp : pixel_order.Perm (List.range carrier.length))
    (hchunks : split_blocks message r = some chunks)
    (hk : chunks.length ≤ n) (hcap : chunks.length + 1 ≤ carrier.length / n)
    (hcb : is_bits carrier) (hmb : is_bits message) :
    ∃ modified_bits,
      encode_image_lsb_random carrier message n r pixel_order = .saved modified_bits ∧
      decode_image_lsb_random n modified_bits n r pixel_order =
        some (message ++ List.replicate ((r - message.length % r) % r) 0) := by
  have hn0 : 0 < n := by
    rcases Nat.eq_zero_or_pos n with h0 | h0
    · rw [h0, Nat.div_zero] at hcap
      exact absurd (Nat.le_zero.mp hcap) (Nat.succ_ne_zero _)
    · exact h0
  have hr : 0 < r := by
    rcases Nat.eq_zero_or_pos r with h0 | h0
    · rw [h0] at hn; simp at hn; omega
    · exact h0
  have hlen : chunks.length = (message.length + r - 1) / r := by
    simp only [split_blocks, if_neg (Nat.pos_iff_ne_zero.mp hr), Option.some.injEq] at hchunks
    rw [← hchunks, split_loop_length r hr _ _ (Nat.le_refl _)]
  rw [hlen] at hk hcap
  exact perm_encode_decode r n carrier message pixel_order hn hp hk hcap hcb hmb

/-- An instance of the permuted round trip in the program's configuration: module-level
`n = 7`, `n_val = 7`, `r = 3`, a carrier of 15 bits read in reverse order and the message
`[1,0]`, one chunk. -/
theorem permuted_round_trip_witness :
    ∃ modified_bits,
      encode_image_lsb_random [1, 0, 0, 1, 1, 0, 1, 0, 0, 0, 1, 0, 1, 1, 1] [1, 0] 7 3
          (List.range 15).reverse = .saved modified_bits ∧
      decode_image_lsb_random 7 modified_bits 7 3 (List.range 15).reverse =
        some ([1, 0] ++ List.replicate ((3 - 2 % 3) % 3) 0) :=
  permuted_round_trip 3 7 [1, 0, 0, 1, 1, 0, 1, 0, 0, 0, 1, 0, 1, 1, 1] [1, 0]
    (List.range 15).reverse [[1, 0, 0]] (by decide) (List.reverse_perm _) (by decide)
    (by decide) (by decide) (by decide) (by decide)

theorem map_getD_zeros (k : Nat) (po : List Nat) :
    po.map (fun p => (List.replicate k 0).getD p 0) = List.replicate po.length 0 := by
  induction po with
  | nil => rfl
  | cons p po ih =>
    have hp : (List.replicate k 0).getD p 0 = 0 := by
      rw [List.getD_eq_getElem?_getD]
      by_cases h : p < k
      · rw [List.getElem?_eq_getElem (by simpa using h)]
        simp
      · rw [List.getElem?_eq_none (by simpa using h)]
        rfl
    simp only [List.map_cons, hp, ih, List.length_cons, List.replicate_succ]

set_option maxRecDepth 100000 in
/-- C5 evaluated at a failing input: the module-level `n` is 7 (`main.cpp`, line 16) and
the block length passed is `n_val = 15` with `r = 4`; the carrier is 30 zero bits
(`floor(30 / 15) = 2` blocks) and the message `[1,0,0,0]` (`k = 1` chunk). For every pixel
order that is a permutation of `0 .. 29`, the encoder saves an image, the chunk being
embedded by a flip at position 8 of the second block; the decoder reads the header with
`syndrom(blocks_x[0], n_val)` but the chunk with `encode`, which takes the syndrome over
the first 7 positions only, and returns `[0,0,0,0]`, not the message. Had `encode` used
`n_val` (first argument 15) the message would come back. -/
theorem permuted_decoder_reads_module_level_n (pixel_order : List Nat)
    (hp : pixel_order.Perm (List.range 30)) :
    ∃ out, encode_image_lsb_random (List.replicate 30 0) [1, 0, 0, 0] 15 4 pixel_order =
        .saved out ∧
      decode_image_lsb_random 7 out 15 4 pixel_order = some [0, 0, 0, 0] ∧
      decode_image_lsb_random 15 out 15 4 pixel_order = some [1, 0, 0, 0] := by
  have hp' : pixel_order.Perm (List.range (List.replicate 30 0).length) := by
    simpa using hp
  have hplen : pixel_order.length = 30 := by rw [hp.length_eq, List.length_range]
  have hpo : ∀ p ∈ pixel_order, p < (List.replicate 30 0).length := fun p hpm => by
    simpa using List.mem_range.mp (hp.mem_iff.mp hpm)
  have hgather : gather_blocks (List.replicate 30 0) pixel_order 15 =
      some (full_blocks (List.replicate 30 0) 15) := by
    rw [gather_blocks_eq _ pixel_order 15 (by decide) (by simpa using hplen) hpo,
      map_getD_zeros, hplen]
  have hblocks : encode_blocks (full_blocks (List.replicate 30 0) 15) [[1, 0, 0, 0]] 15 4
      (List.replicate 30 0).length =
      some (some [1, 0, 0, 0, 0, 0, 0, 0, 0, 0, 0, 0, 0, 0, 0,
        0, 0, 0, 0, 0, 0, 0, 1, 0, 0, 0, 0, 0, 0, 0]) := by decide
  obtain ⟨M, hM, hMl, hMm⟩ := scatter_eq (List.replicate 30 0) pixel_order
    [1, 0, 0, 0, 0, 0, 0, 0, 0, 0, 0, 0, 0, 0, 0, 0, 0, 0, 0, 0, 0, 0, 1, 0, 0, 0, 0, 0, 0, 0]
    hp' (by decide)
  have hsplit : split_blocks [1, 0, 0, 0] 4 = some [[1, 0, 0, 0]] := by decide
  have henc : encode_image_lsb_random (List.replicate 30 0) [1, 0, 0, 0] 15 4 pixel_order =
      .saved M := by
    rw [encode_image_lsb_random, hgather, hsplit]
    simp only [hblocks, hM]
  have hg : gather_blocks M pixel_order 15 =
      some (full_blocks [1, 0, 0, 0, 0, 0, 0, 0, 0, 0, 0, 0, 0, 0, 0,
        0, 0, 0, 0, 0, 0, 0, 1, 0, 0, 0, 0, 0, 0, 0] 15) := by
    rw [gather_blocks_eq M pixel_order 15 (by decide) (by rw [hplen, hMl]; rfl)
      (fun p hpm => by rw [hMl]; exact hpo p hpm), hMm]
  refine ⟨M, henc, ?_, ?_⟩
  · rw [decode_image_lsb_random, hg]
    decide
  · rw [decode_image_lsb_random, hg]
    decide

/-- Witness of the C5 evaluation for the identity pixel order. -/
theorem permuted_decoder_reads_module_level_n_witness :
    ∃ out, encode_image_lsb_random (List.replicate 30 0) [1, 0, 0, 0] 15 4 (List.range 30) =
        .saved out ∧
      decode_image_lsb_random 7 out 15 4 (List.range 30) = some [0, 0, 0, 0] ∧
      decode_image_lsb_random 15 out 15 4 (List.range 30) = some [1, 0, 0, 0] :=
  permuted_decoder_reads_module_level_n (List.range 30) (List.Perm.refl _)

/-! ## Capacity, header and truncation: claims C6 to C8 -/

/-- C6: let `blocks_x` be the blocks the carrier is segmented into and `blocks_m` the
chunks of the message. The sequential encoder ends in the branch
`Message too long for this image`, writing nothing, exactly when
`chunk count + 1 > blockCount`; in particular it does when the chunk count equals
`blockCount`; and when the chunk count equals `blockCount - 1` it saves an image of the
carrier's size (for the Hamming block length `n = 2 ^ r - 1` and a message of bits). -/
theorem capacity_boundary (r n : Nat) (carrier message : List Nat)
    (blocks_x blocks_m : List (List Nat)) (hx : split_blocks carrier n = some blocks_x)
    (hm : split_blocks message r = some blocks_m) :
    (encode_image_lsb carrier message n r = .too_long ↔
        blocks_m.length + 1 > blocks_x.length) ∧
      (blocks_m.length = blocks_x.length →
        encode_image_lsb carrier message n r = .too_long) ∧
      (blocks_m.length + 1 = blocks_x.length →
        encode_image_lsb carrier message n r ≠ .too_long ∧
        (n + 1 = 2 ^ r → is_bits message →
          ∃ new_bits, encode_image_lsb carrier message n r = .saved new_bits ∧
            new_bits.length = carrier.length)) := by
  have hiff := encode_image_lsb_too_long_iff carrier message n r blocks_x blocks_m hx hm
  refine ⟨hiff, fun h => hiff.mpr (by omega), fun h => ⟨fun hc => ?_, fun hn hmb => ?_⟩⟩
  · have := hiff.mp hc
    omega
  · exact encode_image_lsb_saved r n carrier message blocks_x blocks_m hx hm hn hmb (by omega)

/-- Witness of C6 at `n = 7`, `r = 3`: a carrier of 15 bits makes 3 blocks; a message of
2 chunks is saved, a message of 3 chunks is too long. -/
theorem capacity_boundary_witness :
    (∃ new_bits,
        encode_image_lsb [1, 0, 0, 1, 1, 0, 1, 0, 0, 0, 1, 0, 1, 1, 1] [1, 0, 1, 1] 7 3 =
          .saved new_bits ∧ new_bits.length = 15) ∧
      encode_image_lsb [1, 0, 0, 1, 1, 0, 1, 0, 0, 0, 1, 0, 1, 1, 1] [1, 0, 1, 1, 0, 0, 1] 7 3 =
        .too_long :=
  ⟨((capacity_boundary 3 7 [1, 0, 0, 1, 1, 0, 1, 0, 0, 0, 1, 0, 1, 1, 1] [1, 0, 1, 1]
      [[1, 0, 0, 1, 1, 0, 1], [0, 0, 0, 1, 0, 1, 1], [1, 0, 0, 0, 0, 0, 0]]
      [[1, 0, 1], [1, 0, 0]] (by decide) (by decide)).2.2 (by decide)).2
      (by decide) (by decide),
    (capacity_boundary 3 7 [1, 0, 0, 1, 1, 0, 1, 0, 0, 0, 1, 0, 1, 1, 1] [1, 0, 1, 1, 0, 0, 1]
      [[1, 0, 0, 1, 1, 0, 1], [0, 0, 0, 1, 0, 1, 1], [1, 0, 0, 0, 0, 0, 0]]
      [[1, 0, 1], [1, 0, 0], [1, 0, 0]] (by decide) (by decide)).2.1 (by decide)⟩

set_option maxRecDepth 100000 in
/-- C7, as stated, fails: for the count `8 ≥ 2 ^ 3` the header loop does not fail, it
produces the 3-bit chunk `[0,0,0]`; with `n = 7`, `r = 3`, a carrier of 63 bits and a
message of 8 chunks, both encoders go on and save an image. -/
theorem header_overflow_not_rejected :
    2 ^ 3 ≤ 8 ∧ int_to_bits 8 3 = [0, 0, 0] ∧
      split_blocks (List.replicate 24 1) 3 = some (List.replicate 8 [1, 1, 1]) ∧
      (∃ new_bits, encode_image_lsb (List.replicate 63 1) (List.replicate 24 1) 7 3 =
        .saved new_bits) ∧
      (∃ modified_bits, encode_image_lsb_random (List.replicate 63 1) (List.replicate 24 1) 7 3
        (List.range 63) = .saved modified_bits) := by
  refine ⟨by decide, by decide, by decide, ?_, ?_⟩
  · obtain ⟨new_bits, h, _⟩ := encode_image_lsb_saved 3 7 (List.replicate 63 1)
      (List.replicate 24 1) (List.replicate 9 (List.replicate 7 1))
      (List.replicate 8 [1, 1, 1]) (by decide) (by decide) (by decide) (by decide) (by decide)
    exact ⟨new_bits, h⟩
  · cases hres : encode_image_lsb_random (List.replicate 63 1) (List.replicate 24 1) 7 3
        (List.range 63) with
    | saved modified_bits => exact ⟨modified_bits, rfl⟩
    | too_long => exact absurd hres (by decide)
    | undefined => exact absurd hres (by decide)
    | unsupported => exact absurd hres (by decide)

/-- C7, amended: building the `r`-bit header chunk from the message chunk count never
fails; for every count it yields exactly `r` bits, the big-endian digits of
`count mod 2 ^ r`, hence of the count itself only when `count < 2 ^ r`. -/
theorem header_bits_wrap (count r : Nat) :
    (int_to_bits count r).length = r ∧ is_bits (int_to_bits count r) ∧
      binvect_to_num (int_to_bits count r) = count % 2 ^ r ∧
      (count < 2 ^ r → binvect_to_num (int_to_bits count r) = count) := by
  rw [int_to_bits_eq]
  exact ⟨nat_bits_length r count, nat_bits_is_bits r count, binvect_to_num_nat_bits r count,
    fun h => by rw [binvect_to_num_nat_bits, Nat.mod_eq_of_lt h]⟩

/-- Witness of the amended C7 at the count `5` and `r = 3`. -/
theorem header_bits_wrap_witness : binvect_to_num (int_to_bits 5 3) = 5 :=
  (header_bits_wrap 5 3).2.2.2 (by decide)

/-- Decode-side truncation when the module-level `n` that `encode` reads is the block
length passed (the first argument of the decoder is that `n`) and `n ≥ 1`: for every
non-empty carrier the sequential decoder returns a result: with `header :: blocks` the
segmented carrier and `count = syndrom(header)`, the result is the concatenation, in
order, of the `r`-digit big-endian syndromes of the first `min(count, blockCount - 1)`
blocks after the header, and its length is `r * min(count, blockCount - 1)`. -/
theorem decode_truncation (n r : Nat) (lsb_bits : List Nat) (hn : 0 < n)
    (hne : lsb_bits ≠ []) :
    ∃ header blocks count,
      split_blocks lsb_bits n = some (header :: blocks) ∧
      syndrom header n = some count ∧
      (∀ b ∈ blocks, syndrom b n = some (xor_positions 1 b)) ∧
      decode_image_lsb n lsb_bits n r =
        some (((blocks.take (min count ((header :: blocks).length - 1))).map
          (fun b => nat_bits r (xor_positions 1 b))).flatten) ∧
      ∀ out, decode_image_lsb n lsb_bits n r = some out →
        out.length = r * min count ((header :: blocks).length - 1) := by
  have hn' : n ≠ 0 := by omega
  have hsplit : split_blocks lsb_bits n = some (split_loop lsb_bits.length lsb_bits n) := by
    simp only [split_blocks, if_neg hn']
  have hbl := split_loop_block_length n lsb_bits.length lsb_bits
  have hcount := split_loop_length n hn lsb_bits.length lsb_bits (Nat.le_refl _)
  have hpos : 0 < lsb_bits.length := List.length_pos.mpr hne
  have hge : 1 ≤ (lsb_bits.length + n - 1) / n := by
    rw [Nat.le_div_iff_mul_le hn]; omega
  generalize split_loop lsb_bits.length lsb_bits n = all at hsplit hbl hcount
  cases all with
  | nil => simp at hcount; omega
  | cons header blocks =>
    have hh : header.length = n := hbl header (by simp)
    have hs := syndrom_of_length header
    rw [hh] at hs
    have hdec : decode_image_lsb n lsb_bits n r =
        some (((blocks.take (min (xor_positions 1 header) ((header :: blocks).length - 1))).map
          (fun b => nat_bits r (xor_positions 1 b))).flatten) := by
      have htake : blocks.take (min (xor_positions 1 header) blocks.length) =
          blocks.take (xor_positions 1 header) := by
        rcases Nat.le_total (xor_positions 1 header) blocks.length with h | h
        · rw [Nat.min_eq_left h]
        · rw [Nat.min_eq_right h, List.take_length, List.take_of_length_le h]
      rw [decode_image_lsb, hsplit]
      simp only [decode_blocks_eq n r header blocks hbl, List.length_cons,
        Nat.add_sub_cancel, htake]
    refine ⟨header, blocks, xor_positions 1 header, hsplit, hs, ?_, hdec, ?_⟩
    · intro b hb
      have hb' : b.length = n := hbl b (by simp [hb])
      have := syndrom_of_length b
      rwa [hb'] at this
    · intro out hout
      rw [hdec] at hout
      cases hout
      rw [flatten_length_uniform r _ (by
        intro c hc
        obtain ⟨b, _, rfl⟩ := List.mem_map.mp hc
        exact nat_bits_length r _)]
      simp only [List.length_map, List.length_take, List.length_cons, Nat.add_sub_cancel]
      congr 1
      omega

/-- An instance of the truncation in the program's configuration, `n = 7`, `r = 3`: a
carrier of 17 bits whose header block `[1,1,0,0,0,0,0]` has syndrome 3 while only two
blocks follow; the result has `3 * 2` bits. -/
theorem decode_truncation_witness :
    ∃ header blocks count,
      split_blocks [1, 1, 0, 0, 0, 0, 0, 0, 0, 0, 1, 0, 0, 1, 1, 0, 1] 7 =
        some (header :: blocks) ∧
      syndrom header 7 = some count ∧
      (∀ b ∈ blocks, syndrom b 7 = some (xor_positions 1 b)) ∧
      decode_image_lsb 7 [1, 1, 0, 0, 0, 0, 0, 0, 0, 0, 1, 0, 0, 1, 1, 0, 1] 7 3 =
        some (((blocks.take (min count ((header :: blocks).length - 1))).map
          (fun b => nat_bits 3 (xor_positions 1 b))).flatten) ∧
      ∀ out, decode_image_lsb 7 [1, 1, 0, 0, 0, 0, 0, 0, 0, 0, 1, 0, 0, 1, 1, 0, 1] 7 3 =
          some out →
        out.length = 3 * min count ((header :: blocks).length - 1) :=
  decode_truncation 7 3 [1, 1, 0, 0, 0, 0, 0, 0, 0, 0, 1, 0, 0, 1, 1, 0, 1] (by decide)
    (by decide)

/-- The truncation of the instance above, evaluated: the header claims 3 chunks, two
blocks follow, and the decoder returns their two syndromes 3 and 2. -/
theorem decode_truncation_example :
    syndrom [1, 1, 0, 0, 0, 0, 0] 7 = some 3 ∧
      split_blocks [1, 1, 0, 0, 0, 0, 0, 0, 0, 0, 1, 0, 0, 1, 1, 0, 1] 7 =
        some [[1, 1, 0, 0, 0, 0, 0], [0, 0, 0, 1, 0, 0, 1], [1, 0, 1, 0, 0, 0, 0]] ∧
      decode_image_lsb 7 [1, 1, 0, 0, 0, 0, 0, 0, 0, 0, 1, 0, 0, 1, 1, 0, 1] 7 3 =
        some [0, 1, 1, 0, 1, 0] := by
  refine ⟨by decide, by decide, by decide⟩

/-- C8 evaluated at failing inputs: the module-level `n` is 7 (`main.cpp`, line 16) and
`encode`, which the decoder calls for every chunk, takes the syndrome over it instead of
the block length `n_val` the decoder was given. With `n_val = 15`, `r = 4` and a carrier
of 30 bits whose header block has syndrome 1 and whose second block has its only set bit
at position 9, the decoder returns `[0,0,0,0]`, not the 4-bit syndrome `[1,0,0,1]` of
that block. With `n_val = 3`, `r = 2` and the carrier `[1,0,0,0,0,0]`, `encode` reads
`x_[3]` of a block of 3 elements: the decoder fails. The header is read with
`syndrom(blocks_x[0], n_val)`; with `encode` doing the same (first argument `n_val`) both
results are the syndromes of the blocks. -/
theorem decode_reads_module_level_n :
    split_blocks [1, 0, 0, 0, 0, 0, 0, 0, 0, 0, 0, 0, 0, 0, 0,
        0, 0, 0, 0, 0, 0, 0, 0, 1, 0, 0, 0, 0, 0, 0] 15 =
        some [[1, 0, 0, 0, 0, 0, 0, 0, 0, 0, 0, 0, 0, 0, 0],
          [0, 0, 0, 0, 0, 0, 0, 0, 1, 0, 0, 0, 0, 0, 0]] ∧
      syndrom [1, 0, 0, 0, 0, 0, 0, 0, 0, 0, 0, 0, 0, 0, 0] 15 = some 1 ∧
      syndrom [0, 0, 0, 0, 0, 0, 0, 0, 1, 0, 0, 0, 0, 0, 0] 15 = some 9 ∧
      nat_bits 4 9 = [1, 0, 0, 1] ∧
      decode_image_lsb 7 [1, 0, 0, 0, 0, 0, 0, 0, 0, 0, 0, 0, 0, 0, 0,
        0, 0, 0, 0, 0, 0, 0, 0, 1, 0, 0, 0, 0, 0, 0] 15 4 = some [0, 0, 0, 0] ∧
      decode_image_lsb 15 [1, 0, 0, 0, 0, 0, 0, 0, 0, 0, 0, 0, 0, 0, 0,
        0, 0, 0, 0, 0, 0, 0, 0, 1, 0, 0, 0, 0, 0, 0] 15 4 = some [1, 0, 0, 1] ∧
      decode_image_lsb 7 [1, 0, 0, 0, 0, 0] 3 2 = none ∧
      decode_image_lsb 3 [1, 0, 0, 0, 0, 0] 3 2 = some [0, 0] := by
  refine ⟨by decide, by decide, by decide, by decide, by decide, by decide, by decide,
    by decide⟩

/-! ## Pixel order and LSB injection: claims C9 and C10 -/

/-- C9: for every image size `N = width * height * channels` and every seed (whatever
numbers the generator draws), `generate_pixel_order` returns a list of length `N` in
which each index `0 .. N - 1` occurs exactly once and nothing else occurs; and equal
`(N, seed)` pairs give equal lists. -/
theorem generate_pixel_order_bijective (draw : Nat → Nat → Nat)
    (width height channels seed : Nat) :
    (generate_pixel_order draw width height channels seed).length =
        width * height * channels ∧
      (∀ i, i < width * height * channels →
        (generate_pixel_order draw width height channels seed).count i = 1) ∧
      (∀ p ∈ generate_pixel_order draw width height channels seed,
        p < width * height * channels) ∧
      (generate_pixel_order draw width height channels seed).Perm
        (List.range (width * height * channels)) ∧
      ∀ width' height' channels' seed',
        width' * height' * channels' = width * height * channels → seed' = seed →
        generate_pixel_order draw width' height' channels' seed' =
          generate_pixel_order draw width height channels seed := by
  have hperm : (generate_pixel_order draw width height channels seed).Perm
      (List.range (width * height * channels)) := shuffle_perm draw seed _
  refine ⟨by rw [hperm.length_eq, List.length_range], ?_, ?_, hperm, ?_⟩
  · intro i hi
    rw [hperm.count_eq]
    exact List.count_eq_one_of_mem (List.nodup_range _) (List.mem_range.mpr hi)
  · intro p hp
    exact List.mem_range.mp (hperm.mem_iff.mp hp)
  · intro width' height' channels' seed' hN hs
    simp only [generate_pixel_order, hN, hs]

/-- Witness of C9 for a `2 x 3` image with one channel, the seed `5` and a generator that
draws `seed + 3 * i` at step `i`. -/
theorem generate_pixel_order_bijective_witness :
    (generate_pixel_order (fun seed i => seed + 3 * i) 2 3 1 5).count 4 = 1 :=
  (generate_pixel_order_bijective (fun seed i => seed + 3 * i) 2 3 1 5).2.1 4 (by decide)

/-- C10: for every byte buffer of the image size and every sequence of bits `0`/`1` of the
same length, `set_lsb_bits` returns a buffer of that size whose bytes keep their upper
seven bits (`new[i] >> 1 == orig[i] >> 1`), and `get_lsb_bits` of that buffer returns
exactly the injected bit sequence. -/
theorem set_lsb_bits_frame (orig_data bits : List Nat) (width height channels : Nat)
    (hsize : orig_data.length = width * height * channels)
    (hlen : bits.length = orig_data.length)
    (hbytes : ∀ d ∈ orig_data, d < 256) (hbits : is_bits bits) :
    ∃ new_data, set_lsb_bits orig_data bits width height channels = some new_data ∧
      new_data.length = orig_data.length ∧
      new_data.map (fun d => d >>> 1) = orig_data.map (fun d => d >>> 1) ∧
      get_lsb_bits new_data width height channels = some bits := by
  obtain ⟨h1, h2⟩ := zip_lsb orig_data bits hlen hbytes hbits
  have hzl : (List.zipWith (fun d b => ((d &&& 4294967294) ||| b) % 256) orig_data bits).length =
      orig_data.length := by
    rw [List.length_zipWith, hlen, Nat.min_self]
  refine ⟨List.zipWith (fun d b => ((d &&& 4294967294) ||| b) % 256) orig_data bits,
    ?_, hzl, h1, ?_⟩
  · have ht1 : orig_data.take (width * height * channels) = orig_data := by
      rw [← hsize, List.take_length]
    have ht2 : bits.take (width * height * channels) = bits := by
      rw [← hsize, ← hlen, List.take_length]
    simp only [set_lsb_bits, ht1, ht2]
    rw [if_pos ⟨by omega, by omega⟩]
  · have ht : (List.zipWith (fun d b => ((d &&& 4294967294) ||| b) % 256) orig_data bits).take
        (width * height * channels) =
        List.zipWith (fun d b => ((d &&& 4294967294) ||| b) % 256) orig_data bits := by
      rw [← hsize, ← hzl, List.take_length]
    simp only [get_lsb_bits, ht, h2]
    rw [if_pos (by rw [hzl]; omega)]

/-- Witness of C10 at a `2 x 2` image with one channel. -/
theorem set_lsb_bits_frame_witness :
    ∃ new_data, set_lsb_bits [255, 254, 3, 0] [0, 1, 0, 1] 2 2 1 = some new_data ∧
      new_data.length = [255, 254, 3, 0].length ∧
      new_data.map (fun d => d >>> 1) = [255, 254, 3, 0].map (fun d => d >>> 1) ∧
      get_lsb_bits new_data 2 2 1 = some [0, 1, 0, 1] :=
  set_lsb_bits_frame [255, 254, 3, 0] [0, 1, 0, 1] 2 2 1 (by decide) (by decide) (by decide)
    (by decide)

/-! ## Syndrome algebra, segmentation, flip rule: claims C11 to C13 and C16 -/

/-- C11: for every block `x` of `n` bits and every 1-based position `i` with
`1 ≤ i ≤ n`, the syndrome of `x` with bit `i` flipped is `syndrom(x, n) XOR i`; in
particular, when `i` is the (non-zero) syndrome of `x`, the flipped block has syndrome 0. -/
theorem flip_toggles_syndrome (n i : Nat) (x : List Nat) (hx : x.length = n)
    (hb : is_bits x) (h1 : 1 ≤ i) (hi : i ≤ n) :
    ∃ s, syndrom x n = some s ∧ syndrom (flip_at x (i - 1)) n = some (s ^^^ i) ∧
      (s = i → syndrom (flip_at x (i - 1)) n = some 0) := by
  subst hx
  have hflip : syndrom (flip_at x (i - 1)) x.length = some (xor_positions 1 x ^^^ i) := by
    have := syndrom_of_length (flip_at x (i - 1))
    rw [flip_at_length, flip_at_xor_positions 1 x (i - 1) hb (by omega)] at this
    rw [this]
    congr 2
    omega
  refine ⟨xor_positions 1 x, syndrom_of_length x, hflip, fun hs => ?_⟩
  rw [hflip, hs, Nat.xor_self]

/-- Witness of C11 at the block `[1,0,0,1,0,1,1]` (syndrome 4) and the position 4. -/
theorem flip_toggles_syndrome_witness :
    ∃ s, syndrom [1, 0, 0, 1, 0, 1, 1] 7 = some s ∧
      syndrom (flip_at [1, 0, 0, 1, 0, 1, 1] (4 - 1)) 7 = some (s ^^^ 4) ∧
      (s = 4 → syndrom (flip_at [1, 0, 0, 1, 0, 1, 1] (4 - 1)) 7 = some 0) :=
  flip_toggles_syndrome 7 4 [1, 0, 0, 1, 0, 1, 1] rfl (by decide) (by decide) (by decide)

/-- C12, as stated, fails for a block length that is not of the form `2 ^ r - 1`: the
block `[0,0,1,1,0]` of 5 bits has syndrome `3 XOR 4 = 7`, outside `[0, 5]`. -/
theorem syndrom_exceeds_length_at_5 :
    ([0, 0, 1, 1, 0] : List Nat).length = 5 ∧ is_bits [0, 0, 1, 1, 0] ∧
      syndrom [0, 0, 1, 1, 0] 5 = some 7 ∧ ¬ (7 ≤ 5) := by
  refine ⟨rfl, by decide, by decide, by decide⟩

/-- C12, amended: for every block `x` of `n` elements, `syndrom(x, n)` is the XOR of the
1-based positions of the set bits of `x` (`p` is such a position iff `1 ≤ p` and
`x[p - 1] == 1`); when `n = 2 ^ r - 1` it is an integer in `[0, n]`. -/
theorem syndrom_is_xor_of_positions (n : Nat) (x : List Nat) (hx : x.length = n) :
    syndrom x n = some (xor_all (set_positions x)) ∧
      (∀ p, p ∈ set_positions x ↔ 1 ≤ p ∧ x[p - 1]? = some 1) ∧
      ∀ r, n + 1 = 2 ^ r → xor_all (set_positions x) ≤ n := by
  subst hx
  refine ⟨?_, fun p => mem_positions_from 1 p x, fun r hr => ?_⟩
  · rw [syndrom_of_length, xor_positions_eq_xor_all]
    rfl
  · have := xor_positions_lt r 1 x (by omega)
    rw [xor_positions_eq_xor_all] at this
    unfold set_positions
    omega

/-- Witness of the amended C12 at the 7-bit block `[1,0,0,1,0,1,1]`. -/
theorem syndrom_is_xor_of_positions_witness :
    syndrom [1, 0, 0, 1, 0, 1, 1] 7 = some (xor_all (set_positions [1, 0, 0, 1, 0, 1, 1])) ∧
      xor_all (set_positions [1, 0, 0, 1, 0, 1, 1]) ≤ 7 :=
  ⟨(syndrom_is_xor_of_positions 7 [1, 0, 0, 1, 0, 1, 1] rfl).1,
    (syndrom_is_xor_of_positions 7 [1, 0, 0, 1, 0, 1, 1] rfl).2.2 3 (by decide)⟩

/-- C13: for every bit sequence and every size `≥ 1`, the segmentation loop yields
`ceil(length / size)` blocks, each of length exactly `size`, whose concatenation is the
input followed by zero bits only; truncated to the input length it is the input. -/
theorem segmentation_blocks (bits : List Nat) (size : Nat) (hs : 1 ≤ size) :
    ∃ blocks, split_blocks bits size = some blocks ∧
      blocks.length = (bits.length + size - 1) / size ∧
      (∀ b ∈ blocks, b.length = size) ∧
      (∃ k, k < size ∧ blocks.flatten = bits ++ List.replicate k 0) ∧
      blocks.flatten.take bits.length = bits := by
  have hflat := split_loop_flatten_eq size hs bits.length bits (Nat.le_refl _)
  refine ⟨split_loop bits.length bits size, ?_, split_loop_length size hs _ _ (Nat.le_refl _),
    split_loop_block_length size _ _, ⟨_, Nat.mod_lt _ hs, hflat⟩, ?_⟩
  · simp only [split_blocks, if_neg (Nat.pos_iff_ne_zero.mp hs)]
  · rw [hflat, List.take_left']
    rfl

/-- Witness of C13 at a sequence of 8 bits and the size 3. -/
theorem segmentation_blocks_witness :
    ∃ blocks, split_blocks [1, 1, 0, 1, 0, 1, 1, 1] 3 = some blocks ∧
      blocks.length = (8 + 3 - 1) / 3 ∧
      (∀ b ∈ blocks, b.length = 3) ∧
      (∃ k, k < 3 ∧ blocks.flatten = [1, 1, 0, 1, 0, 1, 1, 1] ++ List.replicate k 0) ∧
      blocks.flatten.take 8 = [1, 1, 0, 1, 0, 1, 1, 1] :=
  segmentation_blocks [1, 1, 0, 1, 0, 1, 1, 1] 3 (by decide)

/-- C16: for every block `x` of `n = 2 ^ r - 1` elements and every `r`-bit chunk `m`, with
`pos = syndrom(x, n)` and `target = binvect_to_num(m)`: if `pos == target` then
`task1(x, m, n)` is `x`; otherwise it is `x` with exactly the element at 1-based position
`target XOR pos` flipped (one position differs, the others are equal), a position in
`[1, n]`, which is `target` when `pos == 0`. -/
theorem flip_rule (r n : Nat) (x m : List Nat) (hn : n + 1 = 2 ^ r) (hx : x.length = n)
    (hm : m.length = r) (hmb : is_bits m) :
    ∃ pos, syndrom x n = some pos ∧
      (pos = binvect_to_num m → task1 x m n = some x) ∧
      (pos ≠ binvect_to_num m →
        1 ≤ binvect_to_num m ^^^ pos ∧ binvect_to_num m ^^^ pos ≤ n ∧
        (pos = 0 → binvect_to_num m ^^^ pos = binvect_to_num m) ∧
        task1 x m n = some (flip_at x ((binvect_to_num m ^^^ pos) - 1)) ∧
        hamming x (flip_at x ((binvect_to_num m ^^^ pos) - 1)) = 1 ∧
        ∀ j, (flip_at x ((binvect_to_num m ^^^ pos) - 1))[j]? =
          if j = (binvect_to_num m ^^^ pos) - 1 then (x[j]?).map (fun b => b ^^^ 1)
          else x[j]?) := by
  subst hx
  have hlt : binvect_to_num m < 2 ^ r := by
    have := binvect_to_num_lt m hmb
    rwa [hm] at this
  refine ⟨xor_positions 1 x, syndrom_of_length x, fun h => ?_, fun h => ?_⟩
  · rw [task1_unfold, if_pos h]
  · obtain ⟨y, hy⟩ := task1_defined r x m hn hlt
    rcases task1_some x m y hy with ⟨_, h1⟩ | ⟨_, idx, hidx, hyx, hpos⟩
    · exact absurd h1 h
    · have he : (binvect_to_num m ^^^ xor_positions 1 x) - 1 = idx := by omega
      rw [he]
      refine ⟨by omega, by omega, fun h0 => by rw [h0, Nat.xor_zero], by rw [hy, hyx],
        flip_at_hamming_eq x idx hidx, fun j => flip_at_getElem? x idx j⟩

/-- Witness of C16, the scenario of the specification: `n = 7`, `r = 3`, the all-zero
block and the message `[1,0,1]` give `[0,0,0,0,1,0,0]`. -/
theorem flip_rule_witness :
    task1 [0, 0, 0, 0, 0, 0, 0] [1, 0, 1] 7 = some [0, 0, 0, 0, 1, 0, 0] := by
  obtain ⟨pos, hpos, _, h2⟩ :=
    flip_rule 3 7 [0, 0, 0, 0, 0, 0, 0] [1, 0, 1] (by decide) rfl rfl (by decide)
  have hp : pos = 0 := by
    have h0 : syndrom [0, 0, 0, 0, 0, 0, 0] 7 = some 0 := by decide
    rw [h0] at hpos
    exact (Option.some.inj hpos).symm
  subst hp
  exact (h2 (by decide)).2.2.2.1

/-! ## Bit packing: claim C14 -/

/-- C14: packing a bit sequence 8 bits per byte, most significant bit first, the last
byte zero-filled, and unpacking each byte from bit 7 down to bit 0 returns the sequence
followed by zero bits only, up to the next multiple of 8; the blob has
`ceil(length / 8)` bytes, each below 256, and nothing else (no header). -/
theorem pack_unpack_round_trip (bits : List Nat) (hb : is_bits bits) :
    unpack_bytes (pack_bits bits) =
        bits ++ List.replicate ((8 - bits.length % 8) % 8) 0 ∧
      (pack_bits bits).length = (bits.length + 7) / 8 ∧
      ∀ byte ∈ pack_bits bits, byte < 256 := by
  have hblocks : ∀ c ∈ split_loop bits.length bits 8, c.length = 8 ∧ is_bits c :=
    fun c hc => ⟨split_loop_block_length 8 _ _ c hc, split_loop_is_bits 8 _ _ hb c hc⟩
  have hflat := split_loop_flatten_eq 8 (by decide) bits.length bits (Nat.le_refl _)
  have hlen := split_loop_length 8 (by decide) bits.length bits (Nat.le_refl _)
  unfold pack_bits unpack_bytes
  rw [pack_loop_eq _ bits hb]
  generalize split_loop bits.length bits 8 = blocks at hblocks hflat hlen
  refine ⟨?_, by simpa using hlen, ?_⟩
  · rw [← hflat, List.map_map]
    congr 1
    conv_rhs => rw [← List.map_id blocks]
    apply List.map_congr_left
    intro c hc
    obtain ⟨hl, hcb⟩ := hblocks c hc
    simp only [Function.comp, id, unpack_byte_eq]
    rw [← hl]
    exact nat_bits_binvect_to_num c hcb
  · intro byte hbyte
    obtain ⟨c, hc, rfl⟩ := List.mem_map.mp hbyte
    obtain ⟨hl, hcb⟩ := hblocks c hc
    have := binvect_to_num_lt c hcb
    rw [hl] at this
    simpa using this

/-- Witness of C14 at a sequence of 10 bits: two bytes, six zero bits added. -/
theorem pack_unpack_round_trip_witness :
    unpack_bytes (pack_bits [1, 0, 1, 1, 0, 0, 0, 1, 1, 1]) =
        [1, 0, 1, 1, 0, 0, 0, 1, 1, 1] ++ List.replicate ((8 - 10 % 8) % 8) 0 ∧
      (pack_bits [1, 0, 1, 1, 0, 0, 0, 1, 1, 1]).length = (10 + 7) / 8 ∧
      ∀ byte ∈ pack_bits [1, 0, 1, 1, 0, 0, 0, 1, 1, 1], byte < 256 :=
  pack_unpack_round_trip [1, 0, 1, 1, 0, 0, 0, 1, 1, 1] (by decide)

/-! ## The sequential encoder on a partial last block: claims C17 and C19 -/

/-- C17 evaluated at a failing input: `n = 7`, `r = 3`, a carrier of 8 zero bits (two
blocks, the second one bit and six padding zeros) and the message `[1,0,1]` (one chunk,
`1 ≤ 7` and `1 ≤ 2 - 1`). The capacity check passes and the encoder saves
`[1,0,0,0,0,0,0,0]`: the chunk's flip, at position 5 of the padded second block, is cut
off by `new_bits.resize(8)`. The decoder returns `[0,0,0]`, not the message. -/
theorem sequential_round_trip_lost_in_padding :
    7 + 1 = 2 ^ 3 ∧
      split_blocks (List.replicate 8 0) 7 =
        some [[0, 0, 0, 0, 0, 0, 0], [0, 0, 0, 0, 0, 0, 0]] ∧
      split_blocks [1, 0, 1] 3 = some [[1, 0, 1]] ∧
      task1 [0, 0, 0, 0, 0, 0, 0] [1, 0, 1] 7 = some [0, 0, 0, 0, 1, 0, 0] ∧
      encode_image_lsb (List.replicate 8 0) [1, 0, 1] 7 3 = .saved [1, 0, 0, 0, 0, 0, 0, 0] ∧
      decode_image_lsb 7 [1, 0, 0, 0, 0, 0, 0, 0] 7 3 = some [0, 0, 0] ∧
      decode_image_lsb 7 [1, 0, 0, 0, 0, 0, 0, 0] 7 3 ≠ some [1, 0, 1] := by
  refine ⟨by decide, by decide, by decide, by decide, by decide, by decide, by decide⟩

/-- C19: for every carrier and every message, whenever the sequential encoder saves new
bits (it passed the capacity check with `k` chunks), the new bits have exactly the
carrier's length, differ from the carrier in at most one position inside each of the
first `k + 1` blocks, and equal the carrier at every position `≥ n * (k + 1)`; and the
encoder does save whenever the capacity check passes, `n = 2 ^ r - 1` and the message
consists of bits. -/
theorem sequential_distortion (r n : Nat) (carrier message : List Nat)
    (blocks_x blocks_m : List (List Nat)) (hx : split_blocks carrier n = some blocks_x)
    (hm : split_blocks message r = some blocks_m) :
    (∀ new_bits, encode_image_lsb carrier message n r = .saved new_bits →
        new_bits.length = carrier.length ∧
        (∀ j, j < blocks_m.length + 1 →
          hamming (window carrier n j) (window new_bits n j) ≤ 1) ∧
        (∀ i, n * (blocks_m.length + 1) ≤ i → new_bits[i]? = carrier[i]?)) ∧
      (blocks_m.length + 1 ≤ blocks_x.length → n + 1 = 2 ^ r → is_bits message →
        ∃ new_bits, encode_image_lsb carrier message n r = .saved new_bits) := by
  refine ⟨fun new_bits h => ?_, fun hcap hn hmb => ?_⟩
  · obtain ⟨h1, h2, h3⟩ := encode_image_lsb_saved_frame carrier message n r new_bits blocks_m hm h
    refine ⟨h1, h2, fun i hi => ?_⟩
    have h4 := congrArg (fun l => l[i - n * (blocks_m.length + 1)]?) h3
    simp only [List.getElem?_drop] at h4
    rwa [Nat.add_sub_cancel' hi] at h4
  · obtain ⟨new_bits, h, _⟩ :=
      encode_image_lsb_saved r n carrier message blocks_x blocks_m hx hm hn hmb hcap
    exact ⟨new_bits, h⟩

/-- Witness of C19 at `n = 7`, `r = 3`, a carrier of 15 bits and a message of two chunks. -/
theorem sequential_distortion_witness :
    ∃ new_bits,
      encode_image_lsb [1, 0, 0, 1, 1, 0, 1, 0, 0, 0, 1, 0, 1, 1, 1] [1, 0, 1, 1] 7 3 =
        .saved new_bits ∧
      new_bits.length = 15 ∧
      (∀ j, j < 2 + 1 →
        hamming (window [1, 0, 0, 1, 1, 0, 1, 0, 0, 0, 1, 0, 1, 1, 1] 7 j)
          (window new_bits 7 j) ≤ 1) ∧
      (∀ i, 7 * (2 + 1) ≤ i →
        new_bits[i]? = [1, 0, 0, 1, 1, 0, 1, 0, 0, 0, 1, 0, 1, 1, 1][i]?) := by
  have h := sequential_distortion 3 7 [1, 0, 0, 1, 1, 0, 1, 0, 0, 0, 1, 0, 1, 1, 1] [1, 0, 1, 1]
    [[1, 0, 0, 1, 1, 0, 1], [0, 0, 0, 1, 0, 1, 1], [1, 0, 0, 0, 0, 0, 0]]
    [[1, 0, 1], [1, 0, 0]] (by decide) (by decide)
  obtain ⟨new_bits, hs⟩ := h.2 (by decide) (by decide) (by decide)
  exact ⟨new_bits, hs, h.1 new_bits hs⟩

/-! ## The permuted encoder against the carrier and the sequential encoder: C18, C20 -/

/-- C18 evaluated at a failing input: `n = 7`, `r = 3`, a carrier of 24 one bits (three
whole blocks and 3 more bits) and the message `[1,0,1]` (`k = 1` chunk, capacity check
passed). For every pixel order that is a permutation of `0 .. 23`, the encoder saves
bits that differ from the carrier in at least 3 positions, more than `k + 1 = 2`: the
pixels read last, `pixel_order[21 .. 23]`, belong to no block and are set to 0, because
`new_bits.resize(total_bits)` extends the embedded blocks with zeros and the scatter
loop writes them. -/
theorem permuted_encoder_zeroes_tail (pixel_order : List Nat)
    (hp : pixel_order.Perm (List.range 24)) :
    ∃ out, encode_image_lsb_random (List.replicate 24 1) [1, 0, 1] 7 3 pixel_order =
        .saved out ∧
      out.length = 24 ∧ 3 ≤ hamming (List.replicate 24 1) out ∧
      ∀ i, 21 ≤ i → i < 24 → out.getD (pixel_order.getD i 0) 0 = 0 := by
  have hp' : pixel_order.Perm (List.range (List.replicate 24 1).length) := by
    simpa using hp
  obtain ⟨out, hout, _⟩ := perm_encode_decode 3 7 (List.replicate 24 1) [1, 0, 1]
    pixel_order (by decide) hp' (by decide) (by decide) (by decide) (by decide)
  obtain ⟨hlen, body, hbl, hmap⟩ := encode_image_lsb_random_saved_tail
    (List.replicate 24 1) [1, 0, 1] pixel_order 7 3 out (by decide) hp' hout
  have hones := encode_image_lsb_random_saved_ones
    (List.replicate 24 1) [1, 0, 1] pixel_order 7 3 out (by decide) hp' hout
  simp only [List.length_replicate] at hlen hbl hmap hones
  have hham := hamming_ones out
  rw [hlen] at hham
  refine ⟨out, hout, hlen, by omega, fun i h1 h2 => ?_⟩
  have hplen : pixel_order.length = 24 := by rw [hp.length_eq, List.length_range]
  have hi := congrArg (fun l => l.getD i 0) hmap
  simp only [List.getD_eq_getElem?_getD, List.getElem?_map,
    List.getElem?_eq_getElem (hplen ▸ h2 : i < pixel_order.length), Option.map_some',
    Option.getD_some] at hi
  rw [List.getD_eq_getElem?_getD, List.getD_eq_getElem?_getD,
    List.getElem?_eq_getElem (hplen ▸ h2 : i < pixel_order.length), Option.getD_some, hi,
    List.getElem?_append_right (by omega)]
  have hidx : i - body.length < (List.replicate (24 - 7 * (24 / 7)) 0).length := by
    simp only [List.length_replicate]; omega
  rw [List.getElem?_eq_getElem hidx]
  simp only [List.getElem_replicate, Option.getD_some]

/-- Witness of the C18 evaluation for the identity pixel order. -/
theorem permuted_encoder_zeroes_tail_witness :
    ∃ out, encode_image_lsb_random (List.replicate 24 1) [1, 0, 1] 7 3 (List.range 24) =
        .saved out ∧
      out.length = 24 ∧ 3 ≤ hamming (List.replicate 24 1) out ∧
      ∀ i, 21 ≤ i → i < 24 → out.getD ((List.range 24).getD i 0) 0 = 0 :=
  permuted_encoder_zeroes_tail (List.range 24) (List.Perm.refl _)

/-- C20, as stated, fails in two ways, both with `n = 7`, `r = 3`, the message `[1,0,1]`
and the identity pixel order. On a `2 x 1` RGBA image (8 samples, not a multiple of 7)
the sequential encoder counts two blocks and saves, the permuted encoder counts one whole
block and ends in the too-long branch. On a `7 x 1` image with 2 channels (14 samples)
the sequential encoder refuses the image (`Unsupported channels`) and writes nothing, the
permuted encoder has no such check and saves. For the decoders: on the 8 bits
`[1,0,0,0,0,0,0,1]` the sequential one returns `[0,0,1]`, the permuted one nothing. -/
theorem identity_order_differs_at_8 :
    encode_image_lsb_loaded (List.replicate 8 0) 2 1 4 [1, 0, 1] 7 3 =
        .saved [1, 0, 0, 0, 0, 0, 0, 0] ∧
      encode_image_lsb_random_loaded (List.replicate 8 0) 2 1 4 [1, 0, 1] 7 3
        (List.range (2 * 1 * 4)) = .too_long ∧
      encode_image_lsb_loaded (List.replicate 14 0) 7 1 2 [1, 0, 1] 7 3 = .unsupported ∧
      encode_image_lsb_random_loaded (List.replicate 14 0) 7 1 2 [1, 0, 1] 7 3
        (List.range (7 * 1 * 2)) = .saved [1, 0, 0, 0, 0, 0, 0, 0, 0, 0, 0, 1, 0, 0] ∧
      decode_image_lsb 7 [1, 0, 0, 0, 0, 0, 0, 1] 7 3 = some [0, 0, 1] ∧
      decode_image_lsb_random 7 [1, 0, 0, 0, 0, 0, 0, 1] 7 3 (List.range 8) = some [] := by
  refine ⟨by decide, by decide, by decide, by decide, by decide, by decide⟩

/-- C20, amended: for an image with 3 or 4 channels whose number of samples
`width * height * channels` is a multiple of the block length `n ≥ 1`, for every message
the permuted encoder run with the identity pixel order has the outcome of the sequential
encoder (it fails exactly when the sequential encoder fails and otherwise returns the
same bit sequence), and on the LSBs of the image the permuted decoder with the identity
order returns what the sequential decoder returns. -/
theorem identity_order_equals_sequential (g n r : Nat) (data message : List Nat)
    (width height channels : Nat) (hch : channels = 3 ∨ channels = 4) (hn : 0 < n)
    (hdiv : (width * height * channels) % n = 0) :
    encode_image_lsb_random_loaded data width height channels message n r
        (List.range (width * height * channels)) =
        encode_image_lsb_loaded data width height channels message n r ∧
      ∀ lsb_bits, get_lsb_bits data width height channels = some lsb_bits →
        decode_image_lsb_random g lsb_bits n r (List.range (width * height * channels)) =
          decode_image_lsb g lsb_bits n r := by
  have hlen : ∀ lsb_bits, get_lsb_bits data width height channels = some lsb_bits →
      lsb_bits.length = width * height * channels := by
    intro lsb_bits h
    simp only [get_lsb_bits] at h
    split at h
    · rename_i hle
      cases h
      simp only [List.length_map, List.length_take]
      omega
    · cases h
  have hguard : ¬ (channels ≠ 3 ∧ channels ≠ 4) := by
    rcases hch with h | h <;> simp [h]
  refine ⟨?_, fun lsb_bits h => ?_⟩
  · rw [encode_image_lsb_random_loaded, encode_image_lsb_loaded, if_neg hguard]
    cases h : get_lsb_bits data width height channels with
    | none => rfl
    | some lsb_bits =>
      have hl := hlen lsb_bits h
      simp only []
      rw [← hl]
      exact encode_identity_order lsb_bits message n r hn (by rw [hl]; exact hdiv)
  · have hl := hlen lsb_bits h
    rw [← hl]
    exact decode_identity_order g lsb_bits n r hn (by rw [hl]; exact hdiv)

/-- Witness of the amended C20 at `n = 7`, `r = 3` and a `7 x 1` RGB image (21 samples). -/
theorem identity_order_equals_sequential_witness :
    encode_image_lsb_random_loaded
          [12, 7, 255, 0, 3, 3, 8, 91, 14, 200, 201, 77, 6, 5, 4, 128, 129, 33, 250, 17, 2]
          7 1 3 [1, 0] 7 3 (List.range (7 * 1 * 3)) =
        encode_image_lsb_loaded
          [12, 7, 255, 0, 3, 3, 8, 91, 14, 200, 201, 77, 6, 5, 4, 128, 129, 33, 250, 17, 2]
          7 1 3 [1, 0] 7 3 ∧
      ∀ lsb_bits,
        get_lsb_bits
            [12, 7, 255, 0, 3, 3, 8, 91, 14, 200, 201, 77, 6, 5, 4, 128, 129, 33, 250, 17, 2]
            7 1 3 = some lsb_bits →
        decode_image_lsb_random 7 lsb_bits 7 3 (List.range (7 * 1 * 3)) =
          decode_image_lsb 7 lsb_bits 7 3 :=
  identity_order_equals_sequential 7 7 3
    [12, 7, 255, 0, 3, 3, 8, 91, 14, 200, 201, 77, 6, 5, 4, 128, 129, 33, 250, 17, 2] [1, 0]
    7 1 3 (Or.inl rfl) (by decide) (by decide)

/-! ## Index safety of the embedding: claim C21 -/

/-- C21: for `n = 2 ^ r - 1`, every block `x` of `n` elements and every chunk `m` of `r`
bits, with `pos = syndrom(x, n)` and `mes_num = binvect_to_num(m)`: in the flipping
branch `pos != mes_num`, `pos != 0` the written index `(mes_num XOR pos) - 1` lies in
`[0, n)` (`mes_num XOR pos ≥ 1`, so the `int` index is not negative), and in the flipping
branch `pos != mes_num`, `pos == 0` the written index `mes_num - 1` lies in `[0, n)`;
in both, the write into the error vector is in range and `task1` returns a block. -/
theorem task1_index_safety (r n : Nat) (x m : List Nat) (hn : n + 1 = 2 ^ r)
    (hx : x.length = n) (hm : m.length = r) (hmb : is_bits m) :
    ∃ pos, syndrom x n = some pos ∧
      (pos ≠ binvect_to_num m → pos ≠ 0 →
        1 ≤ binvect_to_num m ^^^ pos ∧ (binvect_to_num m ^^^ pos) - 1 < n ∧
        task1 x m n = apply_error x n ((binvect_to_num m ^^^ pos) - 1) ∧
        apply_error x n ((binvect_to_num m ^^^ pos) - 1) ≠ none) ∧
      (pos ≠ binvect_to_num m → pos = 0 →
        1 ≤ binvect_to_num m ∧ binvect_to_num m - 1 < n ∧
        task1 x m n = apply_error x n (binvect_to_num m - 1) ∧
        apply_error x n (binvect_to_num m - 1) ≠ none) ∧
      task1 x m n ≠ none := by
  subst hx
  have hlt : binvect_to_num m < 2 ^ r := by
    have := binvect_to_num_lt m hmb
    rwa [hm] at this
  have hpos : xor_positions 1 x < 2 ^ r := xor_positions_lt r 1 x (by omega)
  have hxor := Nat.xor_lt_two_pow hlt hpos
  refine ⟨xor_positions 1 x, syndrom_of_length x, fun h1 h2 => ?_, fun h1 h2 => ?_, ?_⟩
  · have hne : binvect_to_num m ^^^ xor_positions 1 x ≠ 0 := by
      rw [Nat.xor_ne_zero]
      exact fun hc => h1 hc.symm
    have hidx : (binvect_to_num m ^^^ xor_positions 1 x) - 1 < x.length := by omega
    refine ⟨by omega, hidx, ?_, ?_⟩
    · rw [task1_unfold, if_neg h1, if_pos h2]
    · rw [apply_error_eq x _ hidx]
      exact fun hc => Option.noConfusion hc
  · have hne : binvect_to_num m ≠ 0 := fun hc => h1 (by rw [h2, hc])
    have hidx : binvect_to_num m - 1 < x.length := by omega
    refine ⟨by omega, hidx, ?_, ?_⟩
    · rw [task1_unfold, if_neg h1, if_neg (by simpa using h2)]
    · rw [apply_error_eq x _ hidx]
      exact fun hc => Option.noConfusion hc
  · obtain ⟨y, hy⟩ := task1_defined r x m hn hlt
    rw [hy]
    exact fun hc => Option.noConfusion hc

/-- Witness of C21 at `n = 7`, `r = 3`, the block `[1,0,0,1,0,1,1]` (syndrome 4) and the
chunk `[1,1,0]` (value 6): the written index is `(6 XOR 4) - 1 = 1`. -/
theorem task1_index_safety_witness :
    ∃ pos, syndrom [1, 0, 0, 1, 0, 1, 1] 7 = some pos ∧
      (pos ≠ binvect_to_num [1, 1, 0] → pos ≠ 0 →
        1 ≤ binvect_to_num [1, 1, 0] ^^^ pos ∧ (binvect_to_num [1, 1, 0] ^^^ pos) - 1 < 7 ∧
        task1 [1, 0, 0, 1, 0, 1, 1] [1, 1, 0] 7 =
          apply_error [1, 0, 0, 1, 0, 1, 1] 7 ((binvect_to_num [1, 1, 0] ^^^ pos) - 1) ∧
        apply_error [1, 0, 0, 1, 0, 1, 1] 7 ((binvect_to_num [1, 1, 0] ^^^ pos) - 1) ≠ none) ∧
      (pos ≠ binvect_to_num [1, 1, 0] → pos = 0 →
        1 ≤ binvect_to_num [1, 1, 0] ∧ binvect_to_num [1, 1, 0] - 1 < 7 ∧
        task1 [1, 0, 0, 1, 0, 1, 1] [1, 1, 0] 7 =
          apply_error [1, 0, 0, 1, 0, 1, 1] 7 (binvect_to_num [1, 1, 0] - 1) ∧
        apply_error [1, 0, 0, 1, 0, 1, 1] 7 (binvect_to_num [1, 1, 0] - 1) ≠ none) ∧
      task1 [1, 0, 0, 1, 0, 1, 1] [1, 1, 0] 7 ≠ none :=
  task1_index_safety 3 7 [1, 0, 0, 1, 0, 1, 1] [1, 1, 0] (by decide) rfl rfl (by decide)

end Indiva1
